import Mathlib

/-!
Shallow embedding of the advanced-ledger core (TypeScript) in Lean 4.

Source files embedded here:
* `src/domain/types.ts`        — amount normalization, cents conversion, balance check
* `src/domain/stateMachine.ts` — transition rules table and line validation
* `src/services/journalService.ts` — atomic journal posting over a document store
* `src/services/outboxService.ts`  — outbox dispatcher (claim / markSent / scheduleRetry)

Modelling conventions:
* The MongoDB store is a record of lists of documents; `updateOne` updates the
  first document matching a predicate, `findOne` is `List.find?`, `insertOne`
  appends.  Transactions (`session.withTransaction`) are modelled by running the
  transaction body on a draft store and discarding the draft when the body
  throws (every write in `postJournal` is performed under the session).
* JavaScript `number` bucket arithmetic is embedded as exact decimal
  fractions (`Dec`, a mantissa over a power of ten).  All numbers that occur
  in the proved statements (decimal strings with at most a few fraction
  digits and small integer seeds) are exactly representable as IEEE doubles,
  so exact decimal arithmetic agrees with the JS evaluation there.
* `bigint` is embedded as `ℤ` (amount strings are digit strings, so values are
  non-negative).
* Wall-clock timestamps are integer epoch milliseconds passed in as parameters;
  `createdAt`/`updatedAt`/`lastTxHint` fields that no claim observes are omitted
  from the document records.
* Thrown `Error`s become values of the inductive `Err`; each constructor is
  noted with the message template the source throws.
-/

namespace Ledger

/-- Buckets of an account (`BucketEnum` in `src/domain/types.ts`). -/
inductive Bucket
  | available
  | pending
  | escrow
  | outflow
deriving DecidableEq, Repr, Fintype

/-- Debit/credit side of a journal line (`SideEnum`). -/
inductive Side
  | debit
  | credit
deriving DecidableEq, Repr

/-- Transition names of the bucket state machine (`TransitionEnum`). -/
inductive Transition
  | reserve
  | lock
  | finalize
  | release
  | revert
deriving DecidableEq, Repr, Fintype

/-- Errors thrown by the embedded code.  Each constructor corresponds to one
`throw new Error(...)` site; the message template is noted in the comment. -/
inductive Err
  /-- "Invalid amount string: ..." (`cents`) and
      "Invalid amount for account ..." (`applyLineAtomic`). -/
  | invalidAmount (s : String)
  /-- "Missing fromBucket for transition ..." (`validateTransition`). -/
  | missingFromBucket (t : Transition)
  /-- "Missing toBucket for transition ..." (`validateTransition`). -/
  | missingToBucket (t : Transition)
  /-- "Invalid fromBucket ... for transition ..." (`validateTransition`). -/
  | invalidFromBucket (b : Bucket) (t : Transition)
  /-- "Invalid toBucket ... for transition ..." (`validateTransition`). -/
  | invalidToBucket (b : Bucket) (t : Transition)
  /-- "All journal lines must use the same currency" (`assertSingleCurrency`). -/
  | currencyMismatch
  /-- "Journal not balanced" (`assertBalanced`). -/
  | unbalanced
  /-- Schema (`JournalSchema.parse`) failure, with the zod issue message. -/
  | schemaViolation (msg : String)
  /-- "Insufficient funds or currency mismatch for account ..." (`applyLineAtomic`). -/
  | insufficientFunds (accountId : String)
  /-- "Negative bucket ... for account ... after journal" (`assertNoNegativeBuckets`). -/
  | negativeBucket (b : Bucket) (accountId : String)
  /-- "CHAOS: simulated failure inside transaction" (`chaosMaybe`). -/
  | chaos
  /-- "markSent: doc not found or not in processing state" (`markSent`). -/
  | markSentNoMatch
  /-- "scheduleRetry: doc not found" (`scheduleRetry`). -/
  | scheduleRetryNoMatch
deriving DecidableEq, Repr

deriving instance DecidableEq for Except

/-! ## Amount strings (`src/domain/types.ts`) -/

/-- `\d` of the JS regexes: an ASCII digit character. -/
def isDigitB (c : Char) : Bool := '0' ≤ c && c ≤ '9'

/-- JS `raw.split(".")` restricted to its first two components: the characters
before the first `'.'`, the characters after it, and whether a dot occurred. -/
def splitDot : List Char → List Char × List Char × Bool
  | [] => ([], [], false)
  | c :: rest =>
    if c = '.' then ([], rest, true)
    else
      let r := splitDot rest
      (c :: r.1, r.2.1, r.2.2)

/-- The test `^\d+(?:\.\d{1,})?$` used by `normalizeAmountString`:
an integer part of one or more digits, optionally a dot followed by one or
more digits (requiring every post-dot character to be a digit rules out a
second dot). -/
def jsShapeAny (cs : List Char) : Bool :=
  let s := splitDot cs
  !s.1.isEmpty && s.1.all isDigitB &&
    (!s.2.2 || (!s.2.1.isEmpty && s.2.1.all isDigitB))

/-- The test `^\d+(?:\.\d{1,2})?$` used by `cents` and by the zod
`AmountSchema` refinement: like `jsShapeAny` but with at most two fraction
digits. -/
def amountShape (cs : List Char) : Bool :=
  let s := splitDot cs
  !s.1.isEmpty && s.1.all isDigitB &&
    (!s.2.2 || (!s.2.1.isEmpty && s.2.1.length ≤ 2 && s.2.1.all isDigitB))

/-- Numeric value of a digit string, i.e. JS `BigInt(str)` on a string of
ASCII digits. -/
def parseNatDigits (cs : List Char) : ℕ :=
  cs.foldl (fun a c => 10 * a + (c.toNat - 48)) 0

/-- Base-10 digit extraction with explicit fuel (so that the definition is
structurally recursive and evaluates inside the kernel); `fuel ≥ n` renders
every digit. -/
def natReprAux : ℕ → ℕ → List Char
  | 0, _ => []
  | fuel + 1, n =>
    if n = 0 then []
    else natReprAux fuel (n / 10) ++ [Char.ofNat (n % 10 + 48)]

/-- Decimal rendering of a natural number: JS `String(BigInt(...))`
(no leading zeros; `"0"` for zero). -/
def natRepr (n : ℕ) : List Char :=
  if n = 0 then ['0'] else natReprAux (n + 1) n

/-- JS `f.padEnd(2, "0")`. -/
def padTo2 (f : List Char) : List Char :=
  if f.length < 2 then f ++ List.replicate (2 - f.length) '0' else f

/-- JS `str.replace(/\.00$/, "")`: drop a literal `".00"` suffix. -/
def stripDot00 (cs : List Char) : List Char :=
  if ['.', '0', '0'].isSuffixOf cs then cs.take (cs.length - 3) else cs

/-- `normalizeAmountString` (`src/domain/types.ts`): leave anything that fails
`^\d+(?:\.\d{1,})?$` unchanged; otherwise drop leading zeros of the integer
part via BigInt round-trip, keep at most two fraction digits, drop an all-zero
fraction, and pad a kept fraction to two digits. -/
def normalizeAmountString (raw : String) : String :=
  let cs := raw.data
  if jsShapeAny cs then
    let s := splitDot cs
    let i := natRepr (parseNatDigits s.1)
    let frac := s.2.1
    if frac.isEmpty then ⟨i⟩
    else
      let f := frac.take 2
      if f.isEmpty || f = ['0'] || f = ['0', '0'] then ⟨i⟩
      else ⟨stripDot00 (i ++ '.' :: padTo2 f)⟩
  else raw

/-- `cents` (`src/domain/types.ts`): normalize, reject anything that fails
`^\d+(?:\.\d{1,2})?$`, then return `BigInt(int) * 100n + BigInt(frac padded
to two digits)`. -/
def cents (str : String) : Except Err ℤ :=
  let normalized := normalizeAmountString str
  if amountShape normalized.data then
    let s := splitDot normalized.data
    let fr := if s.2.1.isEmpty then ['0'] else s.2.1
    .ok ((parseNatDigits s.1 : ℤ) * 100 + parseNatDigits ((padTo2 fr).take 2))
  else .error (.invalidAmount str)

/-- Exact decimal number `num / 10^exp`.  This embeds the JavaScript
`number` values this program computes with: every amount string denotes a
decimal fraction, and the bucket arithmetic only adds and subtracts such
fractions.  (JS rounds each value to the nearest IEEE double; every number
appearing in a proved statement below is exactly representable, e.g.
`"1.50"` ↦ `150/10^2 = 3/2`.)  `Dec.val` gives the rational value. -/
structure Dec where
  num : ℤ
  exp : ℕ
deriving DecidableEq, Repr

/-- The integer `n` as a `Dec`. -/
def Dec.ofInt (n : ℤ) : Dec := ⟨n, 0⟩

/-- Exact addition of decimals (aligning exponents). -/
def Dec.add (a b : Dec) : Dec :=
  if a.exp ≤ b.exp then ⟨a.num * 10 ^ (b.exp - a.exp) + b.num, b.exp⟩
  else ⟨a.num + b.num * 10 ^ (a.exp - b.exp), a.exp⟩

/-- Exact negation of a decimal. -/
def Dec.neg (a : Dec) : Dec := ⟨-a.num, a.exp⟩

/-- Decidable `≤` on decimals (cross-multiplied). -/
def Dec.ble (a b : Dec) : Bool := a.num * 10 ^ b.exp ≤ b.num * 10 ^ a.exp

/-- Decidable `<` on decimals (cross-multiplied). -/
def Dec.blt (a b : Dec) : Bool := a.num * 10 ^ b.exp < b.num * 10 ^ a.exp

/-- The rational value of a decimal. -/
def Dec.val (a : Dec) : ℚ := (a.num : ℚ) / 10 ^ a.exp

/-- An `AmountInput` (`AmountSchema`): currency code and decimal string. -/
structure Amount where
  currency : String
  amount : String
deriving DecidableEq, Repr

/-- A `LineInput` (`LineSchema`): optional buckets, side, amount, transition. -/
structure LineInput where
  accountId : String
  fromBucket : Option Bucket
  toBucket : Option Bucket
  side : Side
  amount : Amount
  transition : Transition
deriving DecidableEq, Repr

/-- A `JournalInput` (`JournalSchema`). -/
structure JournalInput where
  journalId : String
  idempotencyKey : String
  lines : List LineInput
deriving DecidableEq, Repr

/-- `assertBalanced` (`src/domain/types.ts`): fold the signed cents of every
line; ok iff the sum is exactly zero, else "Journal not balanced". -/
def assertBalanced (lines : List LineInput) : Except Err Unit := do
  let sum ← lines.foldlM
    (fun (acc : ℤ) l => do
      let v ← cents l.amount.amount
      pure (acc + if l.side = Side.debit then v else -v))
    0
  if sum = 0 then pure () else .error .unbalanced

/-- `assertSingleCurrency` (`src/domain/types.ts`). -/
def assertSingleCurrency (lines : List LineInput) : Except Err String :=
  match lines with
  | [] => .ok "USD"
  | base :: _ =>
    if lines.all fun l => l.amount.currency = base.amount.currency
    then .ok base.amount.currency
    else .error .currencyMismatch

/-! ## Bucket state machine (`src/domain/stateMachine.ts`) -/

/-- A `TransitionRule`: `from`/`to` are `Bucket | Bucket[]` in the source;
`Sum.inl` embeds the single-bucket form, `Sum.inr` the array form. -/
structure TransitionRule where
  name : Transition
  src : Sum Bucket (List Bucket)
  dst : Sum Bucket (List Bucket)
deriving DecidableEq, Repr

/-- The `RULES` table, the single source of truth for the state machine. -/
def RULES : Transition → TransitionRule
  | .reserve  => ⟨.reserve,  .inl .available, .inl .pending⟩
  | .lock     => ⟨.lock,     .inr [.pending, .available], .inl .escrow⟩
  | .finalize => ⟨.finalize, .inr [.escrow], .inl .outflow⟩
  | .release  => ⟨.release,  .inl .pending,  .inl .available⟩
  | .revert   => ⟨.revert,   .inl .escrow,   .inl .available⟩

/-- `getRule`: the `!rule` null-check in the source can never fire because
`RULES` is total over the enum, so the lookup is the whole function. -/
def getRule (t : Transition) : TransitionRule := RULES t

/-- `bucketMatches`: `Array.isArray(expected) ? expected.includes(val) :
val === expected`. -/
def bucketMatches (val : Bucket) (expected : Sum Bucket (List Bucket)) : Bool :=
  match expected with
  | .inl b => val = b
  | .inr l => val ∈ l

/-- `validateTransition` (`src/domain/stateMachine.ts`): accept an explicit
no-op line (`fromBucket === toBucket`, including both absent) regardless of
transition; otherwise require both buckets present and matching the rule. -/
def validateTransition (line : LineInput) : Except Err Unit :=
  let rule := getRule line.transition
  if line.fromBucket = line.toBucket then .ok ()
  else
    match line.fromBucket with
    | none => .error (.missingFromBucket rule.name)
    | some fb =>
      match line.toBucket with
      | none => .error (.missingToBucket rule.name)
      | some tb =>
        if ¬ bucketMatches fb rule.src then .error (.invalidFromBucket fb rule.name)
        else if ¬ bucketMatches tb rule.dst then .error (.invalidToBucket tb rule.name)
        else .ok ()

/-- `validateAllTransitions`: first failing line aborts. -/
def validateAllTransitions (lines : List LineInput) : Except Err Unit :=
  match lines with
  | [] => .ok ()
  | l :: rest => do
    validateTransition l
    validateAllTransitions rest

/-! ## Document store (`src/domain/docs.ts` and the MongoDB surface) -/

/-- The four bucket balances of an account, JS `number`s embedded as exact
decimals. -/
structure BucketMap where
  available : Dec
  pending : Dec
  escrow : Dec
  outflow : Dec
deriving DecidableEq, Repr

/-- Read one bucket of a `BucketMap`. -/
def BucketMap.get (bs : BucketMap) : Bucket → Dec
  | .available => bs.available
  | .pending => bs.pending
  | .escrow => bs.escrow
  | .outflow => bs.outflow

/-- Add `q` to one bucket of a `BucketMap` (a single `$inc` entry). -/
def BucketMap.add (bs : BucketMap) (b : Bucket) (q : Dec) : BucketMap :=
  match b with
  | .available => { bs with available := bs.available.add q }
  | .pending => { bs with pending := bs.pending.add q }
  | .escrow => { bs with escrow := bs.escrow.add q }
  | .outflow => { bs with outflow := bs.outflow.add q }

/-- An `AccountDoc` (timestamps and `lastTxHint`, which no claim observes,
are omitted). -/
structure AccountDoc where
  id : String
  currency : String
  buckets : BucketMap
deriving DecidableEq, Repr

/-- A `LedgerEntryDoc` (`createdAt` omitted; within one posting all entries
share the transaction's wall-clock instant). -/
structure LedgerEntryDoc where
  journalId : String
  lineNo : ℕ
  accountId : String
  fromBucket : Option Bucket
  toBucket : Option Bucket
  side : Side
  transition : Transition
  amount : String
  currency : String
deriving DecidableEq, Repr

/-- Journal header statuses. -/
inductive JournalStatus
  | pending
  | posted
deriving DecidableEq, Repr

/-- A `JournalDoc` (`createdAt` omitted). -/
structure JournalDoc where
  journalId : String
  idempotencyKey : String
  lines : List LineInput
  status : JournalStatus
deriving DecidableEq, Repr

/-- Outbox item statuses (`OutboxStatus`). -/
inductive OutboxStatus
  | pending
  | processing
  | sent
deriving DecidableEq, Repr

/-- An `OutboxDoc`; `id` embeds the Mongo `_id` surrogate, timestamps are
epoch milliseconds (`updatedAt` omitted). -/
structure OutboxDoc where
  id : ℕ
  journalId : String
  topic : String
  payloadJournalId : String
  status : OutboxStatus
  attempts : ℕ
  nextAttemptAt : ℤ
  createdAt : ℤ
deriving DecidableEq, Repr

/-- The persisted state: the four collections the journal poster and the
outbox dispatcher touch. -/
structure Store where
  accounts : List AccountDoc
  journals : List JournalDoc
  entries : List LedgerEntryDoc
  outbox : List OutboxDoc
deriving DecidableEq, Repr

/-- Mongo `updateOne`: update the first document matching `p` with `f`;
the boolean is `matchedCount == 1`. -/
def updateOne (p : α → Bool) (f : α → α) : List α → List α × Bool
  | [] => ([], false)
  | x :: xs =>
    if p x then (f x :: xs, true)
    else
      let r := updateOne p f xs
      (x :: r.1, r.2)

/-! ## Journal service (`src/services/journalService.ts`) -/

/-- Exact value of a decimal string in major units: the mathematical value
JS `Number(s)` denotes for strings matching `^\d+(\.\d+)?$` (see the `Dec`
comment for the IEEE caveat).  Strings outside that shape are not produced
by the schema; they map to `none` (`NaN`), which `applyLineAtomic` rejects
via its finiteness check. -/
def jsNumber (s : String) : Option Dec :=
  if jsShapeAny s.data then
    let p := splitDot s.data
    some ⟨(parseNatDigits p.1 : ℤ) * 10 ^ p.2.1.length + parseNatDigits p.2.1,
      p.2.1.length⟩
  else none

/-- The hardcoded `SYSTEM_OVERDRAFT_ACCOUNTS` set (`new Set(["ESCROW_POOL"])`),
shared by the guard in `applyLineAtomic` and the sweep in
`assertNoNegativeBuckets`. -/
def SYSTEM_OVERDRAFT_ACCOUNTS : List String := ["ESCROW_POOL"]

/-- The account-existence upsert of `applyLineAtomic`: `$setOnInsert` creates
the account with all-zero buckets and the line's currency; an existing
account is untouched. -/
def ensureAccount (s : Store) (accountId currency : String) : Store :=
  match s.accounts.find? fun a => a.id = accountId with
  | some _ => s
  | none =>
    { s with accounts := s.accounts ++
        [⟨accountId, currency,
          ⟨Dec.ofInt 0, Dec.ofInt 0, Dec.ofInt 0, Dec.ofInt 0⟩⟩] }

/-- The `$inc` document built by `applyLineAtomic`: subtract on `fromBucket`
(if present), add on `toBucket` (if present). -/
def applyInc (fromBucket toBucket : Option Bucket) (amt : Dec)
    (bs : BucketMap) : BucketMap :=
  let bs1 := match fromBucket with
    | some fb => bs.add fb amt.neg
    | none => bs
  match toBucket with
  | some tb => bs1.add tb amt
  | none => bs1

/-- The predicate of the guarded update in `applyLineAtomic`: `_id` matches,
currency equals the line's, and — when `fromBucket` is present and the
account is not a system overdraft account — `buckets[fromBucket] ≥ amount`. -/
def guardPred (line : LineInput) (amt : Dec) (a : AccountDoc) : Bool :=
  a.id = line.accountId && a.currency = line.amount.currency &&
    (match line.fromBucket with
     | some fb =>
       if line.accountId ∈ SYSTEM_OVERDRAFT_ACCOUNTS then true
       else Dec.ble amt (a.buckets.get fb)
     | none => true)

/-- `applyLineAtomic` (`src/services/journalService.ts`): amount finiteness
check, account upsert, no-op short-circuit, then the predicate-guarded
`$inc`.  The returned store is the partial write set accumulated so far
(discarded by the enclosing transaction when an error is also returned). -/
def applyLineAtomic (s : Store) (line : LineInput) : Store × Option Err :=
  match jsNumber line.amount.amount with
  | none => (s, some (.invalidAmount line.amount.amount))
  | some amtNum =>
    if Dec.blt amtNum (Dec.ofInt 0) then
      (s, some (.invalidAmount line.amount.amount))
    else
      let s1 := ensureAccount s line.accountId line.amount.currency
      if line.fromBucket.isSome && line.fromBucket = line.toBucket then
        -- no-op: only `updatedAt`/`lastTxHint` (omitted fields) are touched
        (s1, none)
      else
        match updateOne (guardPred line amtNum)
            (fun a => { a with
              buckets := applyInc line.fromBucket line.toBucket amtNum a.buckets })
            s1.accounts with
        | (acc, true) => ({ s1 with accounts := acc }, none)
        | (_, false) => (s1, some (.insufficientFunds line.accountId))

/-- The `LedgerEntryDoc` written by `appendLedgerEntry` for one line. -/
def mkEntry (journalId : String) (lineNo : ℕ) (line : LineInput) :
    LedgerEntryDoc :=
  ⟨journalId, lineNo, line.accountId, line.fromBucket, line.toBucket,
   line.side, line.transition, line.amount.amount, line.amount.currency⟩

/-- The per-line loop of `postJournal`: apply each line atomically and append
its audit entry, with 1-based `lineNo`; the first failure stops the loop. -/
def applyLines (journalId : String) :
    List LineInput → ℕ → Store → Store × Option Err
  | [], _, s => (s, none)
  | line :: rest, lineNo, s =>
    match applyLineAtomic s line with
    | (s1, some e) => (s1, some e)
    | (s1, none) =>
      let s2 := { s1 with entries := s1.entries ++ [mkEntry journalId lineNo line] }
      applyLines journalId rest (lineNo + 1) s2

/-- First negative bucket of an account, scanned in the fixed order the sweep
uses (`["available", "pending", "escrow", "outflow"]`). -/
def firstNegBucket (bs : BucketMap) : Option Bucket :=
  if Dec.blt bs.available (Dec.ofInt 0) then some .available
  else if Dec.blt bs.pending (Dec.ofInt 0) then some .pending
  else if Dec.blt bs.escrow (Dec.ofInt 0) then some .escrow
  else if Dec.blt bs.outflow (Dec.ofInt 0) then some .outflow
  else none

/-- `assertNoNegativeBuckets`: load the accounts touched by the journal and
fail on the first non-overdraft account holding a negative bucket. -/
def assertNoNegativeBuckets (s : Store) (accountIds : List String) :
    Option Err :=
  match s.accounts.find? fun a =>
      decide (a.id ∈ accountIds) &&
      decide (a.id ∉ SYSTEM_OVERDRAFT_ACCOUNTS) &&
      (firstNegBucket a.buckets).isSome with
  | some a =>
    match firstNegBucket a.buckets with
    | some b => some (.negativeBucket b a.id)
    | none => none
  | none => none

/-- A fresh `_id` for an outbox insert. -/
def freshOutboxId (s : Store) : ℕ :=
  (s.outbox.map OutboxDoc.id).foldr max 0 + 1

/-- `enqueueOutboxPosted`: insert the `LedgerEvent.Posted` item with
`status = pending`, `attempts = 0`, `nextAttemptAt = now`. -/
def enqueueOutboxPosted (now : ℤ) (s : Store) (journalId : String) : Store :=
  { s with outbox := s.outbox ++
      [⟨freshOutboxId s, journalId, "LedgerEvent.Posted", journalId,
        .pending, 0, now, now⟩] }

/-- `createJournalHeader`: insert the header with `status = pending`. -/
def createJournalHeader (s : Store) (input : JournalInput) : Store :=
  { s with journals := s.journals ++
      [⟨input.journalId, input.idempotencyKey, input.lines, .pending⟩] }

/-- `markJournalPosted`: `updateOne({journalId}, {$set: {status: "posted"}})`. -/
def markJournalPosted (s : Store) (journalId : String) : Store :=
  { s with journals :=
      (updateOne (fun j => j.journalId = journalId)
        (fun j => { j with status := .posted }) s.journals).1 }

/-- `findExistingJournal`: `findOne({$or: [{idempotencyKey}, {journalId}]})`. -/
def findExistingJournal (s : Store) (input : JournalInput) :
    Option JournalDoc :=
  s.journals.find? fun j =>
    j.idempotencyKey = input.idempotencyKey || j.journalId = input.journalId

/-- JS whitespace for `String.prototype.trim` (restricted to the common
ASCII whitespace characters; no amount string in this development carries
the exotic Unicode spaces JS also trims). -/
def isJsWhitespace (c : Char) : Bool :=
  c = ' ' || c = '\t' || c = '\n' || c = '\r'

/-- JS `s.trim()`: strip leading and trailing whitespace. -/
def jsTrim (s : String) : String :=
  ⟨((s.data.dropWhile isJsWhitespace).reverse.dropWhile
      isJsWhitespace).reverse⟩

/-- The `^[A-Z]{3}$` refinement of `AmountSchema.currency`. -/
def currencyShape (s : String) : Bool :=
  s.data.length = 3 && s.data.all fun c => 'A' ≤ c && c ≤ 'Z'

/-- `JournalSchema.parse`: shape validation; the amount string is trimmed by
the zod transform, so the parsed journal carries trimmed amounts. -/
def parseJournal (input : JournalInput) : Except Err JournalInput :=
  if input.journalId.isEmpty then .error (.schemaViolation "journalId is required")
  else if input.idempotencyKey.isEmpty then
    .error (.schemaViolation "idempotencyKey is required")
  else if input.lines.length < 2 then
    .error (.schemaViolation "journal must contain at least two lines")
  else if input.lines.any fun l => l.accountId.isEmpty then
    .error (.schemaViolation "accountId is required")
  else if input.lines.any fun l => !currencyShape l.amount.currency then
    .error (.schemaViolation "currency must be a 3-letter uppercase ISO-4217 code")
  else if input.lines.any fun l =>
      !amountShape (jsTrim l.amount.amount).data then
    .error (.schemaViolation "amount must be a positive decimal with up to 2 fraction digits")
  else
    .ok { input with lines := input.lines.map fun l =>
      { l with amount := { l.amount with amount := jsTrim l.amount.amount } } }

/-- `preflightValidate`: non-empty lines, state machine, single currency,
balance — all before the transaction opens. -/
def preflightValidate (parsed : JournalInput) : Except Err Unit := do
  if parsed.lines.isEmpty then
    .error (.schemaViolation "journal must include at least 2 lines")
  else
    validateAllTransitions parsed.lines
    let _ ← assertSingleCurrency parsed.lines
    assertBalanced parsed.lines

/-- The callback `postJournal` passes to `session.withTransaction`: the
idempotency probe, header insert, per-line apply+audit, negative-bucket
sweep, outbox enqueue, posted mark, and the chaos hook.  Returns the draft
store (partial on error — the caller discards it then), the error if any,
and `already?.journalId` for the idempotent-hit path.  `chaos` is the
outcome of the single `Math.random() < p` sample of `chaosMaybe`. -/
def txnBody (now : ℤ) (chaos : Bool) (parsed : JournalInput) (s : Store) :
    Store × Option Err × Option String :=
  match findExistingJournal s parsed with
  | some existing => (s, none, some existing.journalId)
  | none =>
    let s1 := createJournalHeader s parsed
    match applyLines parsed.journalId parsed.lines 1 s1 with
    | (s2, some e) => (s2, some e, none)
    | (s2, none) =>
      match assertNoNegativeBuckets s2
          ((parsed.lines.map LineInput.accountId).dedup) with
      | some e => (s2, some e, none)
      | none =>
        let s3 := enqueueOutboxPosted now s2 parsed.journalId
        let s4 := markJournalPosted s3 parsed.journalId
        if chaos then (s4, some .chaos, none) else (s4, none, none)

/-- `postJournal` (`src/services/journalService.ts`): schema parse and
preflight happen before the session; the transaction body runs under
`withTransaction`, whose abort-on-throw discards the draft store, so an
error leaves the original store observable.  On success the result is
`already?.journalId ?? parsed.journalId`. -/
def postJournal (now : ℤ) (chaos : Bool) (s : Store) (input : JournalInput) :
    Except Err String × Store :=
  match parseJournal input with
  | .error e => (.error e, s)
  | .ok parsed =>
    match preflightValidate parsed with
    | .error e => (.error e, s)
    | .ok _ =>
      match txnBody now chaos parsed s with
      | (_, some e, _) => (.error e, s)
      | (s4, none, already) =>
        (.ok (already.getD parsed.journalId), s4)

/-- `n` sequential `postJournal` calls with the identical body, threading the
store; the returned result is the last call's. -/
def iterPost (now : ℤ) (chaos : Bool) (input : JournalInput) :
    ℕ → Store → Except Err String × Store
  | 0, s => (.error (.schemaViolation "no call"), s)
  | 1, s => postJournal now chaos s input
  | n + 2, s =>
    let r := iterPost now chaos input (n + 1) s
    postJournal now chaos r.2 input

/-! ## Outbox dispatcher (`src/services/outboxService.ts`) -/

/-- `computeBackoffMs`: exponential backoff from a 100 ms base with exponent
capped at 10, up-to-20% jitter from one `Math.random()` sample (`rand`),
clipped to `maxBackoffMs`.  This function is defined but never called by the
dispatcher — `scheduleRetry` computes its own delay. -/
def computeBackoffMs (attempts maxBackoffMs : ℕ) (rand : ℚ) : ℤ :=
  let base : ℤ := min (2 ^ min attempts 10 * 100) maxBackoffMs
  let jitter := ⌊rand * (base * (1 / 5))⌋
  min (base + jitter) (maxBackoffMs : ℤ)

/-- The delay `scheduleRetry` actually computes:
`Math.min(maxBackoffMs, 500 * Math.pow(2, attempts - 1))` where `attempts`
is `doc.attempts + 1`, i.e. `min maxBackoffMs (500 * 2 ^ doc.attempts)`.
Deterministic: no jitter, no cap on the exponent. -/
def scheduleRetryDelayMs (docAttempts maxBackoffMs : ℕ) : ℕ :=
  min maxBackoffMs (500 * 2 ^ ((docAttempts + 1) - 1))

/-- `scheduleRetry`: update the item by `_id` only (no status guard in the
filter) back to `pending`, with the incremented attempt counter and
`nextAttemptAt = now + delay`; "scheduleRetry: doc not found" when no
document matched. -/
def scheduleRetry (now : ℤ) (s : Store) (doc : OutboxDoc)
    (maxBackoffMs : ℕ) : Store × Option Err :=
  match updateOne (fun o => o.id = doc.id)
      (fun o => { o with
        status := .pending,
        nextAttemptAt := now + scheduleRetryDelayMs doc.attempts maxBackoffMs,
        attempts := o.attempts + 1 })
      s.outbox with
  | (ob, true) => ({ s with outbox := ob }, none)
  | (_, false) => (s, some .scheduleRetryNoMatch)

/-- The claim filter: `status = "pending" && nextAttemptAt <= now`. -/
def duePred (now : ℤ) (o : OutboxDoc) : Bool :=
  o.status = OutboxStatus.pending && o.nextAttemptAt ≤ now

/-- The claim sort key comparison `(nextAttemptAt asc, createdAt asc, _id asc)`. -/
def claimLt (a b : OutboxDoc) : Bool :=
  a.nextAttemptAt < b.nextAttemptAt ||
    (a.nextAttemptAt = b.nextAttemptAt &&
      (a.createdAt < b.createdAt ||
        (a.createdAt = b.createdAt && a.id < b.id)))

/-- The document `findOneAndUpdate` selects: the sort-minimal due pending
item, if any. -/
def claimPick (now : ℤ) (s : Store) : Option OutboxDoc :=
  match s.outbox.filter (duePred now) with
  | [] => none
  | x :: xs => some (xs.foldl (fun acc o => if claimLt o acc then o else acc) x)

/-- `claimOne`: atomically pick the sort-minimal due pending item and set it
to `processing`, returning the post-image (`returnDocument: "after"`).  The
selected document is identified by its `_id`, which Mongo keeps unique per
collection. -/
def claimOne (now : ℤ) (s : Store) : Option OutboxDoc × Store :=
  match claimPick now s with
  | none => (none, s)
  | some best =>
    let r := updateOne (fun o => o.id = best.id)
      (fun o => { o with status := .processing }) s.outbox
    (some { best with status := .processing }, { s with outbox := r.1 })

/-- `markSent`: update by `_id` AND `status = "processing"` to `sent`,
incrementing `attempts`; "markSent: doc not found or not in processing
state" when no document matched. -/
def markSent (s : Store) (id : ℕ) : Store × Option Err :=
  match updateOne (fun o => o.id = id && o.status = OutboxStatus.processing)
      (fun o => { o with status := .sent, attempts := o.attempts + 1 })
      s.outbox with
  | (ob, true) => ({ s with outbox := ob }, none)
  | (_, false) => (s, some .markSentNoMatch)

/-- The batch loop of `processOutbox`, sequentially: claim, dispatch (the
oracle `disp` gives the outcome of the `i`-th dispatch: HTTP 2xx within the
timeout or not), then `markSent` on success — a `markSent` throw is caught
by the same `catch` as a dispatch failure and leads to `scheduleRetry` — or
`scheduleRetry` on failure.  A `scheduleRetry` throw propagates out of the
loop; the writes made so far stay (the dispatcher is not transactional).
Returns the store, the propagated error if any, and
`(attempted, sent, retried)`. -/
def processLoop (now : ℤ) (maxBackoffMs : ℕ) (disp : ℕ → Bool) :
    ℕ → ℕ → ℕ → ℕ → Store → Store × Option Err × ℕ × ℕ × ℕ
  | 0, att, snt, rtr, s => (s, none, att, snt, rtr)
  | fuel + 1, att, snt, rtr, s =>
    match claimOne now s with
    | (none, s1) => (s1, none, att, snt, rtr)
    | (some doc, s1) =>
      if disp att then
        match markSent s1 doc.id with
        | (s2, none) =>
          processLoop now maxBackoffMs disp fuel (att + 1) (snt + 1) rtr s2
        | (s2, some _) =>
          match scheduleRetry now s2 doc maxBackoffMs with
          | (s3, none) =>
            processLoop now maxBackoffMs disp fuel (att + 1) snt (rtr + 1) s3
          | (s3, some e) => (s3, some e, att + 1, snt, rtr + 1)
      else
        match scheduleRetry now s1 doc maxBackoffMs with
        | (s3, none) =>
          processLoop now maxBackoffMs disp fuel (att + 1) snt (rtr + 1) s3
        | (s3, some e) => (s3, some e, att + 1, snt, rtr + 1)

/-- `processOutbox`: run the batch loop up to `maxBatch` items (default 50;
`maxBackoffMs` default 60 000). -/
def processOutbox (now : ℤ) (s : Store) (maxBatch maxBackoffMs : ℕ)
    (disp : ℕ → Bool) : Store × Option Err × ℕ × ℕ × ℕ :=
  processLoop now maxBackoffMs disp maxBatch 0 0 0 s

/-! ## Spec-side tables and sums used by theorem statements -/

/-- The (from, to) pairs the specification's rules table allows per
transition: `reserve: available→pending`, `lock: (pending ∨
available)→escrow`, `finalize: escrow→outflow`, `release:
pending→available`, `revert: escrow→available`. -/
def allowedPairB : Transition → Bucket → Bucket → Bool
  | .reserve, .available, .pending => true
  | .lock, .pending, .escrow => true
  | .lock, .available, .escrow => true
  | .finalize, .escrow, .outflow => true
  | .release, .pending, .available => true
  | .revert, .escrow, .available => true
  | _, _, _ => false

/-- The signed minor-unit (cents) sum of the specification's `isBalanced`:
`+toMinor(amount)` for `debit`, `−toMinor(amount)` for `credit`, where
`toMinor` of a `^\d+(\.\d{1,2})?$` string is `int·100 + frac` with the
fraction right-padded to two digits. -/
def toMinorD (s : String) : ℤ :=
  let p := splitDot s.data
  (parseNatDigits p.1 : ℤ) *
    100 + parseNatDigits ((padTo2 (if p.2.1.isEmpty then ['0'] else p.2.1)).take 2)

/-- The specification-side signed sum over a journal's lines. -/
def signedMinorSum (lines : List LineInput) : ℤ :=
  (lines.map fun l =>
    if l.side = Side.debit then toMinorD l.amount.amount
    else -toMinorD l.amount.amount).sum

/-- `validateTransition` as a function of the only fields it inspects
(definitionally equal to it; used to make finite case checks closed). -/
def vtCore (t : Transition) (f tb : Option Bucket) : Except Err Unit :=
  let rule := getRule t
  if f = tb then .ok ()
  else
    match f with
    | none => .error (.missingFromBucket rule.name)
    | some fb =>
      match tb with
      | none => .error (.missingToBucket rule.name)
      | some tb =>
        if ¬ bucketMatches fb rule.src then .error (.invalidFromBucket fb rule.name)
        else if ¬ bucketMatches tb rule.dst then .error (.invalidToBucket tb rule.name)
        else .ok ()

/-- The audit entries `applyLines` appends for a line list starting at a
given 1-based line number. -/
def mkEntries (journalId : String) : List LineInput → ℕ → List LedgerEntryDoc
  | [], _ => []
  | l :: rest, n => mkEntry journalId n l :: mkEntries journalId rest (n + 1)

/-! # Theorems -/

/-- **C10.** A journal line in which both `fromBucket` and `toBucket` are
absent is accepted by `validateTransition` for every transition: the no-op
equality check `fromBucket === toBucket` is satisfied by two absent values
before the presence checks run. -/
theorem validateTransition_accepts_bucketless (line : LineInput)
    (hf : line.fromBucket = none) (ht : line.toBucket = none) :
    validateTransition line = .ok () := by
  unfold validateTransition
  rw [hf, ht]
  simp

/-- Witness for C10: a concrete bucket-less `release` line passes. -/
theorem validateTransition_accepts_bucketless_witness :
    validateTransition
      ⟨"ACC", none, none, Side.credit, ⟨"USD", "5"⟩, Transition.release⟩ =
      .ok () :=
  validateTransition_accepts_bucketless
    ⟨"ACC", none, none, Side.credit, ⟨"USD", "5"⟩, Transition.release⟩ rfl rfl

/-- `validateTransition` inspects only the transition and the two buckets. -/
theorem validateTransition_eq_vtCore (line : LineInput) :
    validateTransition line =
      vtCore line.transition line.fromBucket line.toBucket := rfl

set_option synthInstance.maxSize 2000 in
/-- Finite check of the full `vtCore` behaviour table. -/
theorem vtCore_table :
    ∀ (t : Transition) (f tb : Option Bucket),
      (vtCore t f tb = .ok () ↔
        f = tb ∨ (∃ fb tb', f = some fb ∧ tb = some tb' ∧
          allowedPairB t fb tb' = true)) ∧
      (f = none → tb ≠ none →
        vtCore t f tb = .error (.missingFromBucket t)) ∧
      (f ≠ none → f ≠ tb → tb = none →
        vtCore t f tb = .error (.missingToBucket t)) ∧
      (∀ fb tb', f = some fb → tb = some tb' → fb ≠ tb' →
        (¬ bucketMatches fb (getRule t).src = true →
          vtCore t f tb = .error (.invalidFromBucket fb t)) ∧
        (bucketMatches fb (getRule t).src = true →
          ¬ bucketMatches tb' (getRule t).dst = true →
          vtCore t f tb = .error (.invalidToBucket tb' t))) := by
  decide

/-- **C6.** `validateTransition` accepts a line with `fromBucket = toBucket`
(a no-op, including both absent) regardless of transition; otherwise it
accepts iff both buckets are present and match the rules table exactly
(`reserve: available→pending`, `lock: (pending ∨ available)→escrow`,
`finalize: escrow→outflow`, `release: pending→available`,
`revert: escrow→available`), and otherwise reports a missing-bucket or
invalid-bucket error naming the offending field and the transition. -/
theorem validateTransition_spec (line : LineInput) :
    (validateTransition line = .ok () ↔
      line.fromBucket = line.toBucket ∨
      (∃ fb tb, line.fromBucket = some fb ∧ line.toBucket = some tb ∧
        allowedPairB line.transition fb tb = true)) ∧
    (line.fromBucket = none → line.toBucket ≠ none →
      validateTransition line = .error (.missingFromBucket line.transition)) ∧
    (line.fromBucket ≠ none → line.fromBucket ≠ line.toBucket →
      line.toBucket = none →
      validateTransition line = .error (.missingToBucket line.transition)) ∧
    (∀ fb tb, line.fromBucket = some fb → line.toBucket = some tb → fb ≠ tb →
      (¬ bucketMatches fb (getRule line.transition).src = true →
        validateTransition line =
          .error (.invalidFromBucket fb line.transition)) ∧
      (bucketMatches fb (getRule line.transition).src = true →
        ¬ bucketMatches tb (getRule line.transition).dst = true →
        validateTransition line =
          .error (.invalidToBucket tb line.transition))) := by
  rw [validateTransition_eq_vtCore]
  exact vtCore_table line.transition line.fromBucket line.toBucket

/-- Witness for C6: at a concrete line (`reserve` with buckets
`escrow → pending`), the characterization yields the invalid-from error. -/
theorem validateTransition_spec_witness :
    validateTransition
      ⟨"A", some Bucket.escrow, some Bucket.pending, Side.debit,
        ⟨"USD", "1"⟩, Transition.reserve⟩ =
      .error (.invalidFromBucket Bucket.escrow Transition.reserve) :=
  ((validateTransition_spec
      ⟨"A", some Bucket.escrow, some Bucket.pending, Side.debit,
        ⟨"USD", "1"⟩, Transition.reserve⟩).2.2.2
    Bucket.escrow Bucket.pending rfl rfl (by decide)).1 (by decide)

/-! ### Generic `updateOne` lemmas -/

/-- A successful `updateOne` splits the list around the first match. -/
theorem updateOne_eq_true {α : Type} {p : α → Bool} {f : α → α}
    {l l' : List α} (h : updateOne p f l = (l', true)) :
    ∃ pre x suf, l = pre ++ x :: suf ∧ (∀ y ∈ pre, p y = false) ∧
      p x = true ∧ l' = pre ++ f x :: suf := by
  induction l generalizing l' with
  | nil => simp [updateOne] at h
  | cons a as ih =>
    by_cases hpa : p a = true
    · refine ⟨[], a, as, rfl, by simp, hpa, ?_⟩
      simp [updateOne, hpa] at h
      simp [h.symm]
    · have hpa' : p a = false := by simpa using hpa
      rcases hu : updateOne p f as with ⟨as', m⟩
      simp [updateOne, hpa', hu] at h
      obtain ⟨h1, h2⟩ := h
      subst h2
      obtain ⟨pre, x, suf, hl, hpre, hpx, hl'⟩ := ih hu
      refine ⟨a :: pre, x, suf, by simp [hl], ?_, hpx, by simp [← h1, hl']⟩
      intro y hy
      rcases List.mem_cons.mp hy with hy | hy
      · exact hy ▸ hpa'
      · exact hpre y hy

/-- An unsuccessful `updateOne` leaves the list unchanged and implies no
element matches. -/
theorem updateOne_eq_false {α : Type} {p : α → Bool} {f : α → α}
    {l l' : List α} (h : updateOne p f l = (l', false)) :
    l' = l ∧ ∀ y ∈ l, p y = false := by
  induction l generalizing l' with
  | nil =>
    simp [updateOne] at h
    subst h
    exact ⟨rfl, by simp⟩
  | cons a as ih =>
    by_cases hpa : p a = true
    · simp [updateOne, hpa] at h
    · have hpa' : p a = false := by simpa using hpa
      rcases hu : updateOne p f as with ⟨as', m⟩
      simp [updateOne, hpa', hu] at h
      obtain ⟨h1, h2⟩ := h
      subst h2
      obtain ⟨he, hall⟩ := ih hu
      refine ⟨by simp [← h1, he], ?_⟩
      intro y hy
      rcases List.mem_cons.mp hy with hy | hy
      · exact hy ▸ hpa'
      · exact hall y hy

/-- Elements that fail the predicate are untouched, position by position. -/
theorem updateOne_getElem_of_not_pred {α : Type} {p : α → Bool} {f : α → α}
    {l : List α} {i : ℕ} {x : α} (hx : l[i]? = some x)
    (hp : p x = false) : (updateOne p f l).1[i]? = some x := by
  induction l generalizing i with
  | nil => simp at hx
  | cons a as ih =>
    cases i with
    | zero =>
      simp at hx
      subst hx
      simp [updateOne, hp]
    | succ n =>
      simp at hx
      by_cases hpa : p a = true
      · simp [updateOne, hpa, hx]
      · have hpa' : p a = false := by simpa using hpa
        simp [updateOne, hpa']
        exact ih hx

/-- `updateOne` with a field-preserving update keeps any projection of the
list intact. -/
theorem updateOne_map {α β : Type} {p : α → Bool} {f : α → α}
    (g : α → β) (hg : ∀ x, p x = true → g (f x) = g x) (l : List α) :
    (updateOne p f l).1.map g = l.map g := by
  induction l with
  | nil => rfl
  | cons a as ih =>
    by_cases hpa : p a = true
    · simp [updateOne, hpa, hg a hpa]
    · have hpa' : p a = false := by simpa using hpa
      simp [updateOne, hpa']
      exact ih

/-- `updateOne` preserves length. -/
theorem updateOne_length {α : Type} {p : α → Bool} {f : α → α}
    (l : List α) : (updateOne p f l).1.length = l.length := by
  induction l with
  | nil => rfl
  | cons a as ih =>
    by_cases hpa : p a = true
    · simp [updateOne, hpa]
    · have hpa' : p a = false := by simpa using hpa
      simp [updateOne, hpa']
      exact ih

/-- Every element of an `updateOne` result is an old element or the update
of a matching old element. -/
theorem mem_updateOne {α : Type} {p : α → Bool} {f : α → α}
    {l : List α} {y : α} (hy : y ∈ (updateOne p f l).1) :
    y ∈ l ∨ ∃ x ∈ l, p x = true ∧ y = f x := by
  induction l with
  | nil => simp [updateOne] at hy
  | cons a as ih =>
    by_cases hpa : p a = true
    · simp [updateOne, hpa] at hy
      rcases hy with hy | hy
      · exact Or.inr ⟨a, by simp, hpa, hy⟩
      · exact Or.inl (by simp [hy])
    · have hpa' : p a = false := by simpa using hpa
      simp [updateOne, hpa'] at hy
      rcases hy with hy | hy
      · exact Or.inl (by simp [hy])
      · rcases ih hy with h | ⟨x, hx, hpx, hfx⟩
        · exact Or.inl (List.mem_cons_of_mem a h)
        · exact Or.inr ⟨x, List.mem_cons_of_mem a hx, hpx, hfx⟩

/-! ### C7 — retry backoff -/

/-- Counterexample to C7 as stated: on the first failure of a fresh item
(`doc.attempts = 0`, post-increment attempt count `1`, default
`maxBackoffMs = 60000`), `scheduleRetry` delays by 500 ms, strictly below
`min(500·2^min(1,10), maxBackoffMs) = 1000` — the smallest value the
claimed formula can produce even with zero jitter, so no jitter value
reconciles the claim with the code (which adds none). -/
theorem scheduleRetry_delay_counterexample :
    scheduleRetryDelayMs 0 60000 = 500 ∧
    min (500 * 2 ^ min 1 10) 60000 = 1000 ∧ (500 : ℕ) < 1000 := by
  decide

/-- **C7 (amended).** The rescheduled delay is the deterministic
`min(maxBackoffMs, 500·2^a)` where `a` is the pre-increment attempt count
(`doc.attempts`; the post-increment count minus one), with no jitter and no
cap on the exponent: a successful `scheduleRetry` stores
`nextAttemptAt = now + scheduleRetryDelayMs doc.attempts maxBackoffMs` on
the item with `doc`'s id, sets it `pending`, and increments its attempts;
the delay is monotone in the attempt count and bounded by `maxBackoffMs`
(hence a fortiori by `maxBackoffMs + 20%·maxBackoffMs`). -/
theorem scheduleRetry_backoff_spec :
    (∀ (now : ℤ) (s : Store) (doc : OutboxDoc) (maxB : ℕ) (s' : Store),
      scheduleRetry now s doc maxB = (s', none) →
      ∃ pre o suf, s.outbox = pre ++ o :: suf ∧ o.id = doc.id ∧
        s'.outbox = pre ++
          ({ o with status := .pending,
                    nextAttemptAt :=
                      now + scheduleRetryDelayMs doc.attempts maxB,
                    attempts := o.attempts + 1 } : OutboxDoc) :: suf) ∧
    (∀ a maxB, scheduleRetryDelayMs a maxB = min maxB (500 * 2 ^ a)) ∧
    (∀ a b maxB, a ≤ b →
      scheduleRetryDelayMs a maxB ≤ scheduleRetryDelayMs b maxB) ∧
    (∀ a maxB, scheduleRetryDelayMs a maxB ≤ maxB) := by
  refine ⟨?_, ?_, ?_, ?_⟩
  · intro now s doc maxB s' h
    unfold scheduleRetry at h
    split at h
    case _ ob hu =>
      obtain ⟨pre, x, suf, hl, _, hpx, hl2⟩ := updateOne_eq_true hu
      refine ⟨pre, x, suf, hl, by simpa using hpx, ?_⟩
      have hs2 : s' = { s with outbox := ob } := by
        have hfst := congrArg Prod.fst h
        simpa using hfst.symm
      rw [hs2]
      simpa using hl2
    case _ x hu => simp at h
  · intro a maxB
    simp [scheduleRetryDelayMs]
  · intro a b maxB hab
    unfold scheduleRetryDelayMs
    exact min_le_min le_rfl
      (Nat.mul_le_mul_left 500 (Nat.pow_le_pow_right (by norm_num) (by omega)))
  · intro a maxB
    exact min_le_left _ _

/-- Witness for C7 (amended): a concrete retry of an item with two prior
attempts and `maxBackoffMs = 60000` stores `nextAttemptAt = 100 + 2000`. -/
theorem scheduleRetry_backoff_spec_witness :
    (∃ pre o suf,
      ([⟨5, "J", "LedgerEvent.Posted", "J", OutboxStatus.processing, 2, 0, 0⟩] :
          List OutboxDoc) = pre ++ o :: suf ∧
      o.id = (⟨5, "J", "LedgerEvent.Posted", "J", OutboxStatus.processing, 2, 0, 0⟩ :
          OutboxDoc).id ∧
      (scheduleRetry 100 ⟨[], [], [],
          [⟨5, "J", "LedgerEvent.Posted", "J", OutboxStatus.processing, 2, 0, 0⟩]⟩
          ⟨5, "J", "LedgerEvent.Posted", "J", OutboxStatus.processing, 2, 0, 0⟩
          60000).1.outbox = pre ++
        ({ o with status := .pending,
                  nextAttemptAt := 100 + scheduleRetryDelayMs 2 60000,
                  attempts := o.attempts + 1 } : OutboxDoc) :: suf) ∧
    scheduleRetryDelayMs 2 60000 ≤ 60000 :=
  ⟨scheduleRetry_backoff_spec.1 100
      ⟨[], [], [],
        [⟨5, "J", "LedgerEvent.Posted", "J", OutboxStatus.processing, 2, 0, 0⟩]⟩
      ⟨5, "J", "LedgerEvent.Posted", "J", OutboxStatus.processing, 2, 0, 0⟩
      60000 _ (by decide),
   scheduleRetry_backoff_spec.2.2.2 2 60000⟩

/-! ### C8 — the `sent` status -/

/-- The fold that picks the sort-minimal candidate stays inside the
candidate list. -/
theorem foldl_pick_mem {α : Type} (g : α → α → Bool) :
    ∀ (xs : List α) (x : α),
      xs.foldl (fun acc o => if g o acc then o else acc) x ∈ x :: xs := by
  intro xs
  induction xs with
  | nil => intro x; simp
  | cons y ys ih =>
    intro x
    simp only [List.foldl_cons]
    by_cases hg : g y x = true
    · rw [if_pos hg]
      rcases List.mem_cons.mp (ih y) with h | h
      · simp [h]
      · simp [List.mem_cons_of_mem, h]
    · rw [if_neg hg]
      rcases List.mem_cons.mp (ih x) with h | h
      · simp [h]
      · simp [List.mem_cons_of_mem, h]

/-- A picked claim candidate is a due pending item of the store. -/
theorem claimPick_mem {now : ℤ} {s : Store} {best : OutboxDoc}
    (h : claimPick now s = some best) :
    best ∈ s.outbox ∧ duePred now best = true := by
  unfold claimPick at h
  rcases hf : s.outbox.filter (duePred now) with _ | ⟨x, xs⟩
  · rw [hf] at h; simp at h
  · rw [hf] at h
    simp at h
    have hmem : best ∈ x :: xs := h ▸ foldl_pick_mem claimLt xs x
    have : best ∈ s.outbox.filter (duePred now) := hf ▸ hmem
    exact ⟨List.mem_of_mem_filter this, List.of_mem_filter this⟩

/-- Two distinct elements of a list whose projections are pairwise distinct
have distinct projections. -/
theorem map_nodup_proj_ne {α β : Type} {g : α → β} {l : List α}
    (hnd : (l.map g).Nodup) {i j : ℕ} {a b : α}
    (ha : l[i]? = some a) (hb : l[j]? = some b) (hab : a ≠ b) :
    g a ≠ g b := by
  have hi : i < l.length := by
    by_contra hi
    simp [List.getElem?_eq_none (Nat.le_of_not_lt hi)] at ha
  have hj : j < l.length := by
    by_contra hj
    simp [List.getElem?_eq_none (Nat.le_of_not_lt hj)] at hb
  have ha' : l[i] = a := by simpa [List.getElem?_eq_getElem hi] using ha
  have hb' : l[j] = b := by simpa [List.getElem?_eq_getElem hj] using hb
  have hij : i ≠ j := by
    intro hij
    subst hij
    rw [ha'] at hb'
    exact hab hb'
  intro hg
  have hpw := List.nodup_iff_injective_get.mp hnd
  have hgi : (l.map g).get ⟨i, by simpa using hi⟩ =
      (l.map g).get ⟨j, by simpa using hj⟩ := by
    simp [List.get_eq_getElem, ha', hb', hg]
  have := hpw hgi
  exact hij (by simpa using congrArg Fin.val this)

/-- `claimOne` either finds nothing and leaves the store unchanged, or sets
the picked item to `processing`. -/
theorem claimOne_cases (now : ℤ) (s : Store) :
    (claimPick now s = none ∧ claimOne now s = (none, s)) ∨
    (∃ best, claimPick now s = some best ∧
      claimOne now s =
        (some { best with status := .processing },
         { s with outbox := (updateOne (fun o => o.id = best.id)
             (fun o => { o with status := .processing }) s.outbox).1 })) := by
  unfold claimOne
  rcases hp : claimPick now s with _ | best
  · exact Or.inl ⟨rfl, rfl⟩
  · exact Or.inr ⟨best, rfl, rfl⟩

/-- `claimOne` never changes any item's `_id` (it only flips a status). -/
theorem claimOne_map_id (now : ℤ) (s : Store) :
    (claimOne now s).2.outbox.map OutboxDoc.id =
      s.outbox.map OutboxDoc.id := by
  rcases claimOne_cases now s with ⟨_, h⟩ | ⟨best, _, h⟩
  · rw [h]
  · rw [h]
    exact updateOne_map (p := fun o => o.id = best.id)
      (f := fun o => { o with status := OutboxStatus.processing })
      OutboxDoc.id (fun x _ => rfl) s.outbox

/-- `markSent` never changes any item's `_id`. -/
theorem markSent_map_id (s : Store) (id : ℕ) :
    (markSent s id).1.outbox.map OutboxDoc.id =
      s.outbox.map OutboxDoc.id := by
  unfold markSent
  split
  case _ ob hu =>
    have := updateOne_map (p := fun o =>
        o.id = id && o.status = OutboxStatus.processing)
      (f := fun o => { o with status := .sent, attempts := o.attempts + 1 })
      OutboxDoc.id (fun x _ => rfl) s.outbox
    rw [hu] at this
    exact this
  case _ x hu => rfl

/-- `scheduleRetry` never changes any item's `_id`. -/
theorem scheduleRetry_map_id (now : ℤ) (s : Store) (doc : OutboxDoc)
    (maxB : ℕ) :
    (scheduleRetry now s doc maxB).1.outbox.map OutboxDoc.id =
      s.outbox.map OutboxDoc.id := by
  unfold scheduleRetry
  split
  case _ ob hu =>
    have := updateOne_map (p := fun o => o.id = doc.id)
      (f := fun o => { o with
        status := .pending,
        nextAttemptAt := now + scheduleRetryDelayMs doc.attempts maxB,
        attempts := o.attempts + 1 })
      OutboxDoc.id (fun x _ => rfl) s.outbox
    rw [hu] at this
    exact this
  case _ x hu => rfl

/-- `claimOne` leaves a `sent` item untouched: the claim filter only accepts
`pending` items, so (ids being unique) the claimed item is a different
document. -/
theorem claimOne_preserves_sent {now : ℤ} {s : Store} {i : ℕ}
    {o : OutboxDoc} (hnd : (s.outbox.map OutboxDoc.id).Nodup)
    (hi : s.outbox[i]? = some o) (ho : o.status = .sent) :
    (claimOne now s).2.outbox[i]? = some o := by
  rcases claimOne_cases now s with ⟨_, h⟩ | ⟨best, hp, h⟩
  · rw [h]; exact hi
  · rw [h]
    obtain ⟨hmem, hdue⟩ := claimPick_mem hp
    have hbstat : best.status = OutboxStatus.pending := by
      have hb := hdue
      simp [duePred] at hb
      exact hb.1
    have hob : o ≠ best := by
      intro he
      rw [he, hbstat] at ho
      exact absurd ho (by simp)
    obtain ⟨j, hj⟩ := List.mem_iff_getElem?.mp hmem
    have hne : o.id ≠ best.id := map_nodup_proj_ne hnd hi hj hob
    exact updateOne_getElem_of_not_pred hi (by simp [hne])

/-- `markSent` leaves a `sent` item untouched: its filter requires
`status = "processing"`. -/
theorem markSent_preserves_sent {s : Store} {id : ℕ} {i : ℕ}
    {o : OutboxDoc} (hi : s.outbox[i]? = some o)
    (ho : o.status = .sent) : (markSent s id).1.outbox[i]? = some o := by
  unfold markSent
  split
  case _ ob hu =>
    have := updateOne_getElem_of_not_pred
      (p := fun o => o.id = id && o.status = OutboxStatus.processing)
      (f := fun o =>
        { o with status := .sent, attempts := o.attempts + 1 }) hi
      (by simp [ho])
    rw [hu] at this
    exact this
  case _ x hu => exact hi

/-- `scheduleRetry` leaves any item with a different `_id` untouched. -/
theorem scheduleRetry_preserves_of_ne {now : ℤ} {s : Store}
    {doc : OutboxDoc} {maxB : ℕ} {i : ℕ} {o : OutboxDoc}
    (hi : s.outbox[i]? = some o) (hne : o.id ≠ doc.id) :
    (scheduleRetry now s doc maxB).1.outbox[i]? = some o := by
  unfold scheduleRetry
  split
  case _ ob hu =>
    have := updateOne_getElem_of_not_pred
      (p := fun o => o.id = doc.id)
      (f := fun o => { o with
        status := .pending,
        nextAttemptAt := now + scheduleRetryDelayMs doc.attempts maxB,
        attempts := o.attempts + 1 }) hi (by simp [hne])
    rw [hu] at this
    exact this
  case _ x hu => exact hi

/-- The whole dispatcher batch loop leaves `sent` items untouched. -/
theorem processLoop_preserves_sent (now : ℤ) (maxB : ℕ) (disp : ℕ → Bool) :
    ∀ (fuel att snt rtr : ℕ) (s : Store) (i : ℕ) (o : OutboxDoc),
      (s.outbox.map OutboxDoc.id).Nodup → s.outbox[i]? = some o →
      o.status = .sent →
      (processLoop now maxB disp fuel att snt rtr s).1.outbox[i]? = some o := by
  intro fuel
  induction fuel with
  | zero =>
    intro att snt rtr s i o _ hi _
    exact hi
  | succ n ih =>
    intro att snt rtr s i o hnd hi ho
    unfold processLoop
    rcases hc : claimOne now s with ⟨od, s1⟩
    have hs1i : s1.outbox[i]? = some o := by
      have := @claimOne_preserves_sent now s i o hnd hi ho
      rw [hc] at this
      exact this
    have hs1nd : (s1.outbox.map OutboxDoc.id).Nodup := by
      have := claimOne_map_id now s
      rw [hc] at this
      simpa [this] using hnd
    cases od with
    | none => exact hs1i
    | some doc =>
      have hdocid : ∃ best, best ∈ s.outbox ∧
          best.status = OutboxStatus.pending ∧ doc.id = best.id := by
        rcases claimOne_cases now s with ⟨_, h⟩ | ⟨best, hp, h⟩
        · rw [hc] at h
          simp at h
        · rw [hc] at h
          obtain ⟨hmem, hdue⟩ := claimPick_mem hp
          refine ⟨best, hmem, ?_, ?_⟩
          · have hb := hdue
            simp [duePred] at hb
            exact hb.1
          · have := congrArg Prod.fst h
            simp at this
            rw [this]

      obtain ⟨best, hbmem, hbstat, hdid⟩ := hdocid
      dsimp only
      have hone : o.id ≠ doc.id := by
        obtain ⟨j, hj⟩ := List.mem_iff_getElem?.mp hbmem
        have hob : o ≠ best := by
          intro he
          rw [he, hbstat] at ho
          exact absurd ho (by simp)
        rw [hdid]
        exact map_nodup_proj_ne hnd hi hj hob
      by_cases hd : disp att = true
      · rw [if_pos hd]
        rcases hm : markSent s1 doc.id with ⟨s2, me⟩
        have hs2i : s2.outbox[i]? = some o := by
          have := @markSent_preserves_sent s1 doc.id i o hs1i ho
          rw [hm] at this
          exact this
        have hs2nd : (s2.outbox.map OutboxDoc.id).Nodup := by
          have := markSent_map_id s1 doc.id
          rw [hm] at this
          simpa [this] using hs1nd
        cases me with
        | none =>
          dsimp only
          exact ih (att + 1) (snt + 1) rtr s2 i o hs2nd hs2i ho
        | some e =>
          dsimp only
          rcases hr : scheduleRetry now s2 doc maxB with ⟨s3, re⟩
          have hs3i : s3.outbox[i]? = some o := by
            have := @scheduleRetry_preserves_of_ne now s2 doc maxB i o
              hs2i hone
            rw [hr] at this
            exact this
          have hs3nd : (s3.outbox.map OutboxDoc.id).Nodup := by
            have := scheduleRetry_map_id now s2 doc maxB
            rw [hr] at this
            simpa [this] using hs2nd
          cases re with
          | none =>
            dsimp only
            exact ih (att + 1) snt (rtr + 1) s3 i o hs3nd hs3i ho
          | some e2 =>
            dsimp only
            exact hs3i
      · rw [if_neg hd]
        rcases hr : scheduleRetry now s1 doc maxB with ⟨s3, re⟩
        have hs3i : s3.outbox[i]? = some o := by
          have := @scheduleRetry_preserves_of_ne now s1 doc maxB i o
            hs1i hone
          rw [hr] at this
          exact this
        have hs3nd : (s3.outbox.map OutboxDoc.id).Nodup := by
          have := scheduleRetry_map_id now s1 doc maxB
          rw [hr] at this
          simpa [this] using hs1nd
        cases re with
        | none =>
          dsimp only
          exact ih (att + 1) snt (rtr + 1) s3 i o hs3nd hs3i ho
        | some e2 =>
          dsimp only
          exact hs3i

/-- Counterexample to C8 as stated: `scheduleRetry` applied directly to an
item whose status is `sent` (its update filter matches on `_id` only, with
no status guard) moves it back to `pending` — a step out of `sent` in the
item's step relation. -/
theorem scheduleRetry_escapes_sent :
    ((scheduleRetry 0
        ⟨[], [], [],
          [⟨7, "J-7", "LedgerEvent.Posted", "J-7", OutboxStatus.sent, 3, 0, 0⟩]⟩
        ⟨7, "J-7", "LedgerEvent.Posted", "J-7", OutboxStatus.sent, 3, 0, 0⟩
        1000).1.outbox.map OutboxDoc.status = [OutboxStatus.pending]) ∧
    OutboxStatus.sent ≠ OutboxStatus.pending := by
  constructor
  · rfl
  · simp

/-- **C8 (amended).** `claimOne` and `markSent` never change a `sent` item
(the claim filter accepts only due `pending` items, the mark filter only
`processing` ones), and the `processOutbox` loop composed of claim,
dispatch, mark-sent and schedule-retry never changes a `sent` item either
(given the store's unique `_id`s); but `scheduleRetry` invoked directly on
a `sent` item does move it back to `pending`, because its update filter
matches on `_id` only. -/
theorem sent_is_terminal_for_dispatcher :
    (∀ (now : ℤ) (s : Store) (i : ℕ) (o : OutboxDoc),
      (s.outbox.map OutboxDoc.id).Nodup → s.outbox[i]? = some o →
      o.status = .sent → (claimOne now s).2.outbox[i]? = some o) ∧
    (∀ (s : Store) (id : ℕ) (i : ℕ) (o : OutboxDoc),
      s.outbox[i]? = some o → o.status = .sent →
      (markSent s id).1.outbox[i]? = some o) ∧
    (∀ (now : ℤ) (s : Store) (maxBatch maxB : ℕ) (disp : ℕ → Bool)
        (i : ℕ) (o : OutboxDoc),
      (s.outbox.map OutboxDoc.id).Nodup → s.outbox[i]? = some o →
      o.status = .sent →
      (processOutbox now s maxBatch maxB disp).1.outbox[i]? = some o) := by
  refine ⟨?_, ?_, ?_⟩
  · intro now s i o hnd hi ho
    exact claimOne_preserves_sent hnd hi ho
  · intro s id i o hi ho
    exact markSent_preserves_sent hi ho
  · intro now s maxBatch maxB disp i o hnd hi ho
    exact processLoop_preserves_sent now maxB disp maxBatch 0 0 0 s i o hnd hi ho

/-- Witness for C8 (amended): a concrete run of `processOutbox` over a store
holding one `sent` item and one due `pending` item leaves the `sent` item
unchanged. -/
theorem sent_is_terminal_for_dispatcher_witness :
    (processOutbox 50
      ⟨[], [], [],
        [⟨1, "J-A", "LedgerEvent.Posted", "J-A", OutboxStatus.sent, 1, 0, 0⟩,
         ⟨2, "J-B", "LedgerEvent.Posted", "J-B", OutboxStatus.pending, 0, 0, 0⟩]⟩
      5 1000 (fun _ => true)).1.outbox[0]? =
      some ⟨1, "J-A", "LedgerEvent.Posted", "J-A", OutboxStatus.sent, 1, 0, 0⟩ :=
  sent_is_terminal_for_dispatcher.2.2 50
    ⟨[], [], [],
      [⟨1, "J-A", "LedgerEvent.Posted", "J-A", OutboxStatus.sent, 1, 0, 0⟩,
       ⟨2, "J-B", "LedgerEvent.Posted", "J-B", OutboxStatus.pending, 0, 0, 0⟩]⟩
    5 1000 (fun _ => true) 0
    ⟨1, "J-A", "LedgerEvent.Posted", "J-A", OutboxStatus.sent, 1, 0, 0⟩
    (by decide) rfl rfl

/-! ### Decimal-string lemmas (C9, C5, C4) -/

/-- A list of digit characters contains no dot. -/
theorem dot_not_mem_of_all_digits {l : List Char}
    (h : l.all isDigitB = true) : '.' ∉ l := by
  intro hm
  have := List.all_eq_true.mp h _ hm
  exact absurd this (by decide)

/-- `splitDot` on a dot-free list. -/
theorem splitDot_no_dot {l : List Char} (h : '.' ∉ l) :
    splitDot l = (l, [], false) := by
  induction l with
  | nil => rfl
  | cons c cs ih =>
    have hc : ¬ c = '.' := fun he => h (he ▸ List.mem_cons_self c cs)
    have hcs : '.' ∉ cs := fun hm => h (List.mem_cons_of_mem c hm)
    simp [splitDot, hc, ih hcs]

/-- `splitDot` around the first dot. -/
theorem splitDot_append {i f : List Char} (h : '.' ∉ i) :
    splitDot (i ++ '.' :: f) = (i, f, true) := by
  induction i with
  | nil => simp [splitDot]
  | cons c cs ih =>
    have hc : ¬ c = '.' := fun he => h (he ▸ List.mem_cons_self c cs)
    have hcs : '.' ∉ cs := fun hm => h (List.mem_cons_of_mem c hm)
    simp [splitDot, hc, ih hcs]

/-- The code point of a digit character built from a digit. -/
theorem char_ofNat_digit_toNat {d : ℕ} (h : d < 10) :
    (Char.ofNat (d + 48)).toNat = d + 48 := by
  interval_cases d <;> decide

/-- A digit character built from a digit passes `isDigitB`. -/
theorem isDigitB_char_ofNat {d : ℕ} (h : d < 10) :
    isDigitB (Char.ofNat (d + 48)) = true := by
  interval_cases d <;> decide

/-- Folding the base-10 accumulator over the rendered digits recovers the
number (`BigInt(String(n)) = n`). -/
theorem parseNatDigits_rev_map (ds : List ℕ) (h : ∀ d ∈ ds, d < 10) :
    parseNatDigits (ds.reverse.map fun d => Char.ofNat (d + 48)) =
      Nat.ofDigits 10 ds := by
  induction ds with
  | nil => simp [parseNatDigits]
  | cons d rest ih =>
    have hd : d < 10 := h d (by simp)
    have hrest : ∀ x ∈ rest, x < 10 := fun x hx => h x (by simp [hx])
    rw [List.reverse_cons, List.map_append]
    unfold parseNatDigits
    rw [List.foldl_append]
    simp only [List.map_cons, List.map_nil, List.foldl_cons, List.foldl_nil]
    rw [show (Char.ofNat (d + 48)).toNat - 48 = d by
      rw [char_ofNat_digit_toNat hd]; omega]
    have hih := ih hrest
    unfold parseNatDigits at hih
    rw [hih, Nat.ofDigits_cons]
    ring

/-- With enough fuel, `natReprAux` renders exactly the base-10 digits. -/
theorem natReprAux_eq_digits :
    ∀ (fuel n : ℕ), n ≤ fuel →
      natReprAux fuel n =
        (Nat.digits 10 n).reverse.map fun d => Char.ofNat (d + 48) := by
  intro fuel
  induction fuel with
  | zero =>
    intro n hn
    interval_cases n
    simp [natReprAux]
  | succ m ih =>
    intro n hn
    by_cases h0 : n = 0
    · subst h0
      simp [natReprAux]
    · unfold natReprAux
      rw [if_neg h0]
      have hdiv : n / 10 ≤ m := by
        have := Nat.div_lt_self (Nat.pos_of_ne_zero h0)
          (by norm_num : (1 : ℕ) < 10)
        omega
      rw [ih (n / 10) hdiv]
      rw [Nat.digits_def' (b := 10) (by norm_num) (Nat.pos_of_ne_zero h0)]
      simp

/-- `natRepr` in terms of `Nat.digits`. -/
theorem natRepr_eq_digits (n : ℕ) (h : n ≠ 0) :
    natRepr n = (Nat.digits 10 n).reverse.map fun d => Char.ofNat (d + 48) := by
  unfold natRepr
  rw [if_neg h, natReprAux_eq_digits (n + 1) n (by omega)]

/-- `parseNatDigits` inverts `natRepr`. -/
theorem parseNatDigits_natRepr (n : ℕ) : parseNatDigits (natRepr n) = n := by
  by_cases h : n = 0
  · subst h; decide
  · rw [natRepr_eq_digits n h]
    rw [parseNatDigits_rev_map _ fun d hd => Nat.digits_lt_base (by norm_num) hd]
    exact Nat.ofDigits_digits 10 n

/-- Every character of `natRepr n` is a digit. -/
theorem natRepr_all_digits (n : ℕ) : (natRepr n).all isDigitB = true := by
  by_cases h : n = 0
  · subst h; decide
  · rw [natRepr_eq_digits n h]
    rw [List.all_eq_true]
    intro c hc
    obtain ⟨d, hd, hcd⟩ := List.mem_map.mp hc
    have : d < 10 :=
      Nat.digits_lt_base (by norm_num) (List.mem_reverse.mp hd)
    exact hcd ▸ isDigitB_char_ofNat this

/-- `natRepr` is never empty. -/
theorem natRepr_ne_nil (n : ℕ) : natRepr n ≠ [] := by
  by_cases h : n = 0
  · subst h; decide
  · rw [natRepr_eq_digits n h]
    simp [Nat.digits_ne_nil_iff_ne_zero.mpr h]

/-- `natRepr` contains no dot. -/
theorem dot_not_mem_natRepr (n : ℕ) : '.' ∉ natRepr n :=
  dot_not_mem_of_all_digits (natRepr_all_digits n)

/-- Structure of `splitDot`'s output: the prefix is dot-free, and the input
is recovered by gluing the parts back. -/
theorem splitDot_structure (cs : List Char) :
    '.' ∉ (splitDot cs).1 ∧
    ((splitDot cs).2.2 = true →
      cs = (splitDot cs).1 ++ '.' :: (splitDot cs).2.1) ∧
    ((splitDot cs).2.2 = false →
      (splitDot cs).1 = cs ∧ (splitDot cs).2.1 = []) := by
  induction cs with
  | nil => simp [splitDot]
  | cons c cs ih =>
    by_cases hc : c = '.'
    · subst hc
      simp [splitDot]
    · obtain ⟨h1, h2, h3⟩ := ih
      refine ⟨?_, ?_, ?_⟩
      · intro hm
        simp [splitDot, hc] at hm
        rcases hm with hm | hm
        · exact hc hm.symm
        · exact h1 hm
      · intro hd
        simp [splitDot, hc] at hd ⊢
        exact h2 hd
      · intro hd
        simp [splitDot, hc] at hd ⊢
        exact h3 hd

/-- Decomposition of a string passing the `^\d+(?:\.\d{1,2})?$` test. -/
theorem amountShape_cases {cs : List Char} (h : amountShape cs = true) :
    (cs ≠ [] ∧ cs.all isDigitB = true ∧ splitDot cs = (cs, [], false)) ∨
    (∃ i f, cs = i ++ '.' :: f ∧ i ≠ [] ∧ i.all isDigitB = true ∧
      f ≠ [] ∧ f.length ≤ 2 ∧ f.all isDigitB = true ∧
      splitDot cs = (i, f, true)) := by
  obtain ⟨hnd, hrec, hflat⟩ := splitDot_structure cs
  simp only [amountShape, Bool.and_eq_true, Bool.or_eq_true] at h
  cases hdot : (splitDot cs).2.2 with
  | false =>
    obtain ⟨hfst, hemp⟩ := hflat hdot
    left
    obtain ⟨⟨hne, hdig⟩, _⟩ := h
    refine ⟨?_, ?_, ?_⟩
    · intro he
      rw [hfst, he] at hne
      simp at hne
    · rw [← hfst]
      exact hdig
    · calc splitDot cs
          = ((splitDot cs).1, (splitDot cs).2.1, (splitDot cs).2.2) := rfl
        _ = (cs, [], false) := by rw [hfst, hemp, hdot]
  | true =>
    have hcs := hrec hdot
    right
    obtain ⟨⟨hne, hdig⟩, hor⟩ := h
    rcases hor with hbad | ⟨⟨hfne, hflen⟩, hfdig⟩
    · rw [hdot] at hbad
      simp at hbad
    · refine ⟨(splitDot cs).1, (splitDot cs).2.1, hcs, ?_, hdig, ?_, ?_, hfdig, ?_⟩
      · intro he
        rw [he] at hne
        simp at hne
      · intro he
        rw [he] at hfne
        simp at hfne
      · simpa using hflen
      · calc splitDot cs
            = ((splitDot cs).1, (splitDot cs).2.1, (splitDot cs).2.2) := rfl
          _ = ((splitDot cs).1, (splitDot cs).2.1, true) := by rw [hdot]

/-- Padding a short non-empty fraction yields exactly two characters. -/
theorem padTo2_length {f : List Char} (h1 : f ≠ []) (h2 : f.length ≤ 2) :
    (padTo2 f).length = 2 := by
  unfold padTo2
  by_cases hl : f.length < 2
  · rw [if_pos hl]
    have : f.length ≠ 0 := fun he => h1 (List.eq_nil_of_length_eq_zero he)
    simp
    omega
  · rw [if_neg hl]
    omega

/-- Padding preserves digit-ness. -/
theorem padTo2_all_digits {f : List Char} (h : f.all isDigitB = true) :
    (padTo2 f).all isDigitB = true := by
  unfold padTo2
  by_cases hl : f.length < 2
  · rw [if_pos hl]
    have hrep : (List.replicate (2 - f.length) '0').all isDigitB = true := by
      rw [List.all_eq_true]
      intro c hc
      rw [List.eq_of_mem_replicate hc]
      decide
    rw [List.all_append, h, hrep]
    rfl
  · rw [if_neg hl]
    exact h

/-- A padded fraction that was not all-zero is not `"00"`. -/
theorem padTo2_ne_00 {f : List Char} (h0 : f ≠ []) (h1 : f ≠ ['0'])
    (h2 : f ≠ ['0', '0']) (hl : f.length ≤ 2) :
    padTo2 f ≠ ['0', '0'] := by
  match f, h0 with
  | [a], _ =>
    intro he
    unfold padTo2 at he
    simp at he
    exact h1 (by rw [he])
  | [a, b], _ =>
    intro he
    unfold padTo2 at he
    simp at he
    exact h2 (by rw [he.1, he.2])
  | a :: b :: c :: r, _ =>
    exfalso
    simp at hl

/-- `stripDot00` is the identity when the fraction part is not `"00"`. -/
theorem stripDot00_id {i g : List Char} (hg : g.length = 2)
    (hne : g ≠ ['0', '0']) : stripDot00 (i ++ '.' :: g) = i ++ '.' :: g := by
  unfold stripDot00
  rw [if_neg]
  intro hsuf
  have hsx : ['.', '0', '0'] <:+ (i ++ '.' :: g) := by
    rwa [List.isSuffixOf_iff_suffix] at hsuf
  obtain ⟨t, ht⟩ := hsx
  obtain ⟨-, heq⟩ := List.append_inj' ht.symm (by simp [hg])
  injection heq with h1 h2
  exact hne h2

/-- `normalizeAmountString` on a dot-free digit string is the BigInt
round-trip of the integer part. -/
theorem normalize_no_dot {s : String} (hne : s.data ≠ [])
    (hdig : s.data.all isDigitB = true) :
    normalizeAmountString s = ⟨natRepr (parseNatDigits s.data)⟩ := by
  have hsplit := splitDot_no_dot (dot_not_mem_of_all_digits hdig)
  have hjsp : jsShapeAny s.data = true := by
    simp [jsShapeAny, hsplit, hdig, List.isEmpty_iff, hne]
  simp [normalizeAmountString, hjsp, hsplit]

/-- A rendered natural number passes the amount-shape test. -/
theorem amountShape_natRepr (n : ℕ) : amountShape (natRepr n) = true := by
  have hsplit := splitDot_no_dot (dot_not_mem_natRepr n)
  simp [amountShape, hsplit, natRepr_all_digits n, List.isEmpty_iff,
    natRepr_ne_nil n]

/-- Minor-unit value of a rendered integer string. -/
theorem toMinorD_mk_natRepr (n : ℕ) :
    toMinorD ⟨natRepr n⟩ = (n : ℤ) * 100 := by
  have hsplit := splitDot_no_dot (dot_not_mem_natRepr n)
  have hz : parseNatDigits ((padTo2 ['0']).take 2) = 0 := by decide
  simp [toMinorD, hsplit, parseNatDigits_natRepr, hz]

/-- A rendered integer with a two-digit fraction passes the shape test. -/
theorem amountShape_natRepr_frac (n : ℕ) {g : List Char} (hg2 : g.length = 2)
    (hgd : g.all isDigitB = true) :
    amountShape (natRepr n ++ '.' :: g) = true := by
  have hsplit := splitDot_append (f := g) (dot_not_mem_natRepr n)
  simp [amountShape, hsplit, natRepr_all_digits n, List.isEmpty_iff,
    natRepr_ne_nil n, hg2, hgd]
  intro he
  rw [he] at hg2
  simp at hg2

/-- Minor-unit value of a rendered integer with a two-digit fraction. -/
theorem toMinorD_mk_natRepr_frac (n : ℕ) {g : List Char}
    (hg2 : g.length = 2) :
    toMinorD ⟨natRepr n ++ '.' :: g⟩ =
      (n : ℤ) * 100 + parseNatDigits g := by
  have hsplit := splitDot_append (f := g) (dot_not_mem_natRepr n)
  have hgne : g ≠ [] := by
    intro he
    rw [he] at hg2
    simp at hg2
  have hpad : padTo2 g = g := by
    unfold padTo2
    rw [if_neg (by omega)]
  have htake : g.take 2 = g := List.take_of_length_le (by omega)
  simp [toMinorD, hsplit, parseNatDigits_natRepr, hgne, hpad, htake]

/-- The canonicalizer is value-preserving (in exact minor units) and
shape-preserving on every well-shaped input with at most two fraction
digits. -/
theorem normalize_preserves_value {s : String}
    (h : amountShape s.data = true) :
    amountShape (normalizeAmountString s).data = true ∧
    toMinorD (normalizeAmountString s) = toMinorD s := by
  rcases amountShape_cases h with ⟨hne, hdig, hsplit⟩ |
    ⟨i, f, hcs, hine, hidig, hfne, hflen, hfdig, hsplit⟩
  · have hn := normalize_no_dot hne hdig
    rw [hn]
    constructor
    · exact amountShape_natRepr _
    · rw [toMinorD_mk_natRepr]
      have hz : parseNatDigits ((padTo2 ['0']).take 2) = 0 := by decide
      simp [toMinorD, hsplit, hz]
  · have hins : '.' ∉ i := dot_not_mem_of_all_digits hidig
    have hsany : jsShapeAny s.data = true := by
      simp [jsShapeAny, hsplit, List.isEmpty_iff, hine, hfne, hfdig, hidig]
    have htakef : f.take 2 = f := List.take_of_length_le hflen
    by_cases hf0 : f = ['0'] ∨ f = ['0', '0']
    · have hnorm : normalizeAmountString s = ⟨natRepr (parseNatDigits i)⟩ := by
        simp [normalizeAmountString, hsany, hsplit, List.isEmpty_iff, hfne,
          htakef]
        rcases hf0 with h0 | h0 <;> simp [h0]
      rw [hnorm]
      refine ⟨amountShape_natRepr _, ?_⟩
      rw [toMinorD_mk_natRepr]
      have hz : parseNatDigits ((padTo2 f).take 2) = 0 := by
        rcases hf0 with h0 | h0 <;> rw [h0] <;> decide
      simp [toMinorD, hsplit, hfne, hz]
    · push_neg at hf0
      obtain ⟨hf1, hf2⟩ := hf0
      have hnorm : normalizeAmountString s =
          ⟨stripDot00 (natRepr (parseNatDigits i) ++ '.' :: padTo2 f)⟩ := by
        simp [normalizeAmountString, hsany, hsplit, List.isEmpty_iff, hfne,
          htakef, hf1, hf2]
      have hglen : (padTo2 f).length = 2 := padTo2_length hfne hflen
      have hg00 : padTo2 f ≠ ['0', '0'] := padTo2_ne_00 hfne hf1 hf2 hflen
      have hstrip := stripDot00_id (i := natRepr (parseNatDigits i)) hglen hg00
      rw [hnorm, hstrip]
      refine ⟨amountShape_natRepr_frac _ hglen (padTo2_all_digits hfdig), ?_⟩
      rw [toMinorD_mk_natRepr_frac _ hglen]
      have htpad : (padTo2 f).take 2 = padTo2 f :=
        List.take_of_length_le (by omega)
      simp [toMinorD, hsplit, hfne, htpad]

/-- Counterexample to C9 as stated: `"1.234"` is malformed in the claim's
sense (three fraction digits), yet `normalizeAmountString` does not leave it
unchanged — it truncates it to `"1.23"`, altering the numeric value. -/
theorem normalizeAmountString_counterexample :
    amountShape (String.data "1.234") = false ∧
    normalizeAmountString "1.234" = "1.23" ∧
    ("1.23" : String) ≠ "1.234" := by
  refine ⟨by decide, by decide, by decide⟩

/-- **C9 (amended).** `normalizeAmountString` leaves unchanged any input
that fails the code's own shape test `^\d+(\.\d+)?$` — inputs with any
number of fraction digits count as well-formed to the normalizer, and a
fraction longer than two digits is truncated to two (altering the value
when the dropped digits are non-zero, as in `"1.234" ↦ "1.23"`).  For every
input that is a positive decimal with at most two fraction digits, the
canonical form is again well-shaped and the numeric value in exact minor
units is preserved. -/
theorem normalizeAmountString_spec :
    (∀ s : String, jsShapeAny s.data = false → normalizeAmountString s = s) ∧
    (∀ s : String, amountShape s.data = true →
      amountShape (normalizeAmountString s).data = true ∧
      toMinorD (normalizeAmountString s) = toMinorD s) := by
  constructor
  · intro s hs
    simp [normalizeAmountString, hs]
  · intro s hs
    exact normalize_preserves_value hs

/-- Witness for C9 (amended): the malformed `"abc"` is unchanged; the
well-formed `"1.50"` keeps its value (150 minor units). -/
theorem normalizeAmountString_spec_witness :
    normalizeAmountString "abc" = "abc" ∧
    (amountShape (normalizeAmountString "1.50").data = true ∧
      toMinorD (normalizeAmountString "1.50") = toMinorD "1.50") :=
  ⟨normalizeAmountString_spec.1 "abc" (by decide),
   normalizeAmountString_spec.2 "1.50" (by decide)⟩

/-! ### C5 — the balance check -/

/-- `cents` succeeds on every well-shaped amount and returns exactly the
specification's `toMinor` value. -/
theorem cents_eq_toMinorD {s : String} (h : amountShape s.data = true) :
    cents s = .ok (toMinorD s) := by
  obtain ⟨hsh, hval⟩ := normalize_preserves_value h
  have hc : cents s = .ok (toMinorD (normalizeAmountString s)) := by
    simp [cents, hsh, toMinorD]
  rw [hc, hval]

/-- The balance fold computes the signed minor-unit sum. -/
theorem assertBalanced_fold (lines : List LineInput)
    (h : ∀ l ∈ lines, amountShape l.amount.amount.data = true) :
    ∀ acc : ℤ,
      lines.foldlM
        (fun (acc : ℤ) l => do
          let v ← cents l.amount.amount
          pure (acc + if l.side = Side.debit then v else -v))
        acc = .ok (acc + signedMinorSum lines) := by
  induction lines with
  | nil =>
    intro acc
    simp [signedMinorSum]
    rfl
  | cons l rest ih =>
    intro acc
    have hl := cents_eq_toMinorD (h l (by simp))
    rw [List.foldlM_cons, hl]
    have hrest : ∀ x ∈ rest, amountShape x.amount.amount.data = true :=
      fun x hx => h x (by simp [hx])
    show rest.foldlM _ _ = _
    rw [ih hrest]
    simp [signedMinorSum]
    ring

/-- **C5.** For every list of lines whose amounts match the valid decimal
shape, the balance check succeeds iff the sum over the lines of
`+toMinor(amount)` for `debit` and `−toMinor(amount)` for `credit` is
exactly zero, computed in exact integers; `assertBalanced` reports
"Journal not balanced" exactly when the sum is non-zero. -/
theorem assertBalanced_spec (lines : List LineInput)
    (h : ∀ l ∈ lines, amountShape l.amount.amount.data = true) :
    (assertBalanced lines = .ok () ↔ signedMinorSum lines = 0) ∧
    (assertBalanced lines = .error .unbalanced ↔
      signedMinorSum lines ≠ 0) := by
  have hfold := assertBalanced_fold lines h 0
  unfold assertBalanced
  rw [show (0 : ℤ) + signedMinorSum lines = signedMinorSum lines from by ring]
    at hfold
  rw [hfold]
  by_cases hz : signedMinorSum lines = 0
  · simp [bind, Except.bind, pure, Except.pure, hz]
  · simp [bind, Except.bind, pure, Except.pure, hz]

/-- Witness for C5: the balanced 10/10 reserve+lock pair passes the check,
and an unbalanced 10/9 pair is reported as "Journal not balanced". -/
theorem assertBalanced_spec_witness :
    assertBalanced
      [⟨"A", some Bucket.available, some Bucket.pending, Side.debit,
          ⟨"USD", "10"⟩, Transition.reserve⟩,
       ⟨"B", some Bucket.available, some Bucket.escrow, Side.credit,
          ⟨"USD", "10"⟩, Transition.lock⟩] = .ok () ∧
    assertBalanced
      [⟨"A", some Bucket.available, some Bucket.pending, Side.debit,
          ⟨"USD", "10"⟩, Transition.reserve⟩,
       ⟨"B", some Bucket.available, some Bucket.escrow, Side.credit,
          ⟨"USD", "9"⟩, Transition.lock⟩] = .error .unbalanced :=
  ⟨(assertBalanced_spec
      [⟨"A", some Bucket.available, some Bucket.pending, Side.debit,
          ⟨"USD", "10"⟩, Transition.reserve⟩,
       ⟨"B", some Bucket.available, some Bucket.escrow, Side.credit,
          ⟨"USD", "10"⟩, Transition.lock⟩] (by decide)).1.mpr (by decide),
   (assertBalanced_spec
      [⟨"A", some Bucket.available, some Bucket.pending, Side.debit,
          ⟨"USD", "10"⟩, Transition.reserve⟩,
       ⟨"B", some Bucket.available, some Bucket.escrow, Side.credit,
          ⟨"USD", "9"⟩, Transition.lock⟩] (by decide)).2.mpr (by decide)⟩

/-! ### Exact-decimal value lemmas (C4, C3) -/

/-- Value of an integer decimal. -/
theorem Dec.val_ofInt (n : ℤ) : (Dec.ofInt n).val = (n : ℚ) := by
  simp [Dec.ofInt, Dec.val]

/-- `Dec.add` is addition of values. -/
theorem Dec.val_add (a b : Dec) : (a.add b).val = a.val + b.val := by
  unfold Dec.add Dec.val
  by_cases h : a.exp ≤ b.exp
  · rw [if_pos h]
    set k := b.exp - a.exp with hk
    have e : b.exp = a.exp + k := by omega
    rw [e, pow_add]
    push_cast
    have h1 : (10 : ℚ) ^ a.exp ≠ 0 := pow_ne_zero _ (by norm_num)
    have h2 : (10 : ℚ) ^ k ≠ 0 := pow_ne_zero _ (by norm_num)
    field_simp
    ring
  · rw [if_neg h]
    set k := a.exp - b.exp with hk
    have e : a.exp = b.exp + k := by omega
    rw [e, pow_add]
    push_cast
    have h1 : (10 : ℚ) ^ b.exp ≠ 0 := pow_ne_zero _ (by norm_num)
    have h2 : (10 : ℚ) ^ k ≠ 0 := pow_ne_zero _ (by norm_num)
    field_simp
    ring

/-- `Dec.neg` is negation of values. -/
theorem Dec.val_neg (a : Dec) : a.neg.val = -a.val := by
  simp [Dec.neg, Dec.val, neg_div]

/-- `Dec.blt` decides strict value comparison. -/
theorem Dec.blt_iff (a b : Dec) : Dec.blt a b = true ↔ a.val < b.val := by
  unfold Dec.blt Dec.val
  rw [decide_eq_true_iff]
  rw [div_lt_div_iff₀ (by positivity) (by positivity)]
  constructor
  · intro h
    exact_mod_cast h
  · intro h
    exact_mod_cast h

/-- `Dec.ble` decides value comparison. -/
theorem Dec.ble_iff (a b : Dec) : Dec.ble a b = true ↔ a.val ≤ b.val := by
  unfold Dec.ble Dec.val
  rw [decide_eq_true_iff]
  rw [div_le_div_iff₀ (by positivity) (by positivity)]
  constructor
  · intro h
    exact_mod_cast h
  · intro h
    exact_mod_cast h

/-- Reading a bucket after a single `$inc` entry. -/
theorem BucketMap.get_add (bs : BucketMap) (b : Bucket) (q : Dec)
    (b' : Bucket) :
    (bs.add b q).get b' =
      if b' = b then (bs.get b').add q else bs.get b' := by
  cases b <;> cases b' <;> simp [BucketMap.add, BucketMap.get]

/-! ### C4 — per-line bucket deltas -/

/-- Bucket-level effect of one `$inc` document with both buckets present. -/
theorem applyInc_get_both {fb tb : Bucket} (hne : fb ≠ tb) (amt : Dec)
    (bs : BucketMap) :
    ((applyInc (some fb) (some tb) amt bs).get fb).val =
      (bs.get fb).val - amt.val ∧
    ((applyInc (some fb) (some tb) amt bs).get tb).val =
      (bs.get tb).val + amt.val ∧
    ∀ b, b ≠ fb → b ≠ tb →
      (applyInc (some fb) (some tb) amt bs).get b = bs.get b := by
  unfold applyInc
  refine ⟨?_, ?_, ?_⟩
  · rw [BucketMap.get_add, if_neg hne, BucketMap.get_add, if_pos rfl,
        Dec.val_add, Dec.val_neg]
    ring
  · rw [BucketMap.get_add, if_pos rfl, Dec.val_add, BucketMap.get_add,
        if_neg (Ne.symm hne)]
  · intro b hbf hbt
    rw [BucketMap.get_add, if_neg hbt, BucketMap.get_add, if_neg hbf]

/-- **C4 (amended).** For every applied journal line with distinct present
buckets, the delta applied to the account's buckets equals the line's
amount interpreted as a decimal number in *major units* via JS `Number()`
(`jsNumber`), not in integer cents: `buckets[fromBucket]` decreases by the
amount's value and `buckets[toBucket]` increases by it — e.g. amount
`"1.50"` changes buckets by `3/2`, not `150`. -/
theorem applyLineAtomic_delta (s : Store) (line : LineInput) (amt : Dec)
    (s' : Store) (fb tb : Bucket)
    (hjs : jsNumber line.amount.amount = some amt)
    (hfb : line.fromBucket = some fb) (htb : line.toBucket = some tb)
    (hne : fb ≠ tb) (happ : applyLineAtomic s line = (s', none)) :
    ∃ pre a suf,
      (ensureAccount s line.accountId line.amount.currency).accounts =
        pre ++ a :: suf ∧
      s'.accounts = pre ++
        ({ a with buckets := applyInc (some fb) (some tb) amt a.buckets } :
          AccountDoc) :: suf ∧
      ((applyInc (some fb) (some tb) amt a.buckets).get fb).val =
        (a.buckets.get fb).val - amt.val ∧
      ((applyInc (some fb) (some tb) amt a.buckets).get tb).val =
        (a.buckets.get tb).val + amt.val ∧
      (∀ b, b ≠ fb → b ≠ tb →
        (applyInc (some fb) (some tb) amt a.buckets).get b =
          a.buckets.get b) := by
  unfold applyLineAtomic at happ
  rw [hjs] at happ
  dsimp only at happ
  by_cases hblt : Dec.blt amt (Dec.ofInt 0) = true
  · rw [if_pos hblt] at happ
    simp at happ
  · rw [if_neg hblt] at happ
    have hcond : (line.fromBucket.isSome && line.fromBucket = line.toBucket) =
        false := by
      simp [hfb, htb, hne]
    rw [hcond] at happ
    simp only [Bool.false_eq_true, if_false] at happ
    rcases hu : updateOne (guardPred line amt)
        (fun a => { a with
          buckets := applyInc line.fromBucket line.toBucket amt a.buckets })
        (ensureAccount s line.accountId line.amount.currency).accounts
      with ⟨acc, m⟩
    rw [hu] at happ
    cases m with
    | false => simp at happ
    | true =>
      obtain ⟨pre, a, suf, hl, _, _, hl'⟩ := updateOne_eq_true hu
      refine ⟨pre, a, suf, hl, ?_, ?_⟩
      · have hs' : s' =
            { ensureAccount s line.accountId line.amount.currency with
              accounts := acc } := by
          have := congrArg Prod.fst happ
          simpa using this.symm
        rw [hs', hl']
        simp [hfb, htb]
      · exact applyInc_get_both hne amt a.buckets

/-- Counterexample to C4 as stated: posting `"1.50"` moves `3/2` (the JS
float value of the string), not `150` minor units. -/
theorem applyLineAtomic_minor_units_counterexample :
    (applyLineAtomic
        ⟨[⟨"A", "USD", ⟨Dec.ofInt 10, Dec.ofInt 0, Dec.ofInt 0, Dec.ofInt 0⟩⟩],
          [], [], []⟩
        ⟨"A", some Bucket.available, some Bucket.pending, Side.debit,
          ⟨"USD", "1.50"⟩, Transition.reserve⟩) =
      (⟨[⟨"A", "USD", ⟨⟨850, 2⟩, ⟨150, 2⟩, Dec.ofInt 0, Dec.ofInt 0⟩⟩],
          [], [], []⟩, none) ∧
    Dec.val ⟨150, 2⟩ = 3 / 2 ∧
    toMinorD "1.50" = 150 ∧
    (3 / 2 : ℚ) ≠ 150 := by
  refine ⟨by decide, ?_, by decide, by norm_num⟩
  norm_num [Dec.val]

/-- Witness for C4 (amended): the concrete `"1.50"` reserve line on an
account with 10 available. -/
theorem applyLineAtomic_delta_witness :
    ∃ pre a suf,
      (ensureAccount
        ⟨[⟨"A", "USD", ⟨Dec.ofInt 10, Dec.ofInt 0, Dec.ofInt 0, Dec.ofInt 0⟩⟩],
          [], [], []⟩ "A" "USD").accounts = pre ++ a :: suf ∧
      (⟨[⟨"A", "USD", ⟨⟨850, 2⟩, ⟨150, 2⟩, Dec.ofInt 0, Dec.ofInt 0⟩⟩],
          [], [], []⟩ : Store).accounts = pre ++
        ({ a with buckets := (applyInc (some Bucket.available)
            (some Bucket.pending) ⟨150, 2⟩ a.buckets) } : AccountDoc) :: suf ∧
      ((applyInc (some Bucket.available) (some Bucket.pending) ⟨150, 2⟩
          a.buckets).get Bucket.available).val =
        (a.buckets.get Bucket.available).val - Dec.val ⟨150, 2⟩ ∧
      ((applyInc (some Bucket.available) (some Bucket.pending) ⟨150, 2⟩
          a.buckets).get Bucket.pending).val =
        (a.buckets.get Bucket.pending).val + Dec.val ⟨150, 2⟩ ∧
      (∀ b, b ≠ Bucket.available → b ≠ Bucket.pending →
        (applyInc (some Bucket.available) (some Bucket.pending) ⟨150, 2⟩
          a.buckets).get b = a.buckets.get b) :=
  applyLineAtomic_delta
    ⟨[⟨"A", "USD", ⟨Dec.ofInt 10, Dec.ofInt 0, Dec.ofInt 0, Dec.ofInt 0⟩⟩],
      [], [], []⟩
    ⟨"A", some Bucket.available, some Bucket.pending, Side.debit,
      ⟨"USD", "1.50"⟩, Transition.reserve⟩
    ⟨150, 2⟩
    ⟨[⟨"A", "USD", ⟨⟨850, 2⟩, ⟨150, 2⟩, Dec.ofInt 0, Dec.ofInt 0⟩⟩],
      [], [], []⟩
    Bucket.available Bucket.pending (by decide) rfl rfl (by decide) (by decide)

/-! ### Journal-service frame lemmas (C1, C2, C3) -/

/-- The account-existence upsert touches only the accounts collection, and
only by keeping it or appending the new zero account. -/
theorem ensureAccount_frame (s : Store) (id cur : String) :
    (ensureAccount s id cur).journals = s.journals ∧
    (ensureAccount s id cur).entries = s.entries ∧
    (ensureAccount s id cur).outbox = s.outbox ∧
    ((ensureAccount s id cur).accounts = s.accounts ∨
      (ensureAccount s id cur).accounts = s.accounts ++
        [⟨id, cur, ⟨Dec.ofInt 0, Dec.ofInt 0, Dec.ofInt 0, Dec.ofInt 0⟩⟩]) := by
  unfold ensureAccount
  rcases h : s.accounts.find? fun a => a.id = id with _ | a
  · simp [h]
  · simp [h]

/-- `applyLineAtomic` touches only the accounts collection. -/
theorem applyLineAtomic_frame (s : Store) (line : LineInput) :
    (applyLineAtomic s line).1.journals = s.journals ∧
    (applyLineAtomic s line).1.entries = s.entries ∧
    (applyLineAtomic s line).1.outbox = s.outbox := by
  unfold applyLineAtomic
  obtain ⟨hj, he, ho, _⟩ :=
    ensureAccount_frame s line.accountId line.amount.currency
  rcases hn : jsNumber line.amount.amount with _ | amt
  · exact ⟨rfl, rfl, rfl⟩
  · by_cases hb : Dec.blt amt (Dec.ofInt 0) = true
    · simp [hb]
    · simp only [Bool.not_eq_true] at hb
      simp only [hb, Bool.false_eq_true, if_false]
      by_cases hc : (line.fromBucket.isSome &&
          line.fromBucket = line.toBucket) = true
      · simp [hc, hj, he, ho]
      · simp only [Bool.not_eq_true] at hc
        simp only [hc, Bool.false_eq_true, if_false]
        rcases hu : updateOne (guardPred line amt)
            (fun a => { a with
              buckets := applyInc line.fromBucket line.toBucket amt a.buckets })
            (ensureAccount s line.accountId line.amount.currency).accounts
          with ⟨acc, m⟩
        cases m <;> simp [hj, he, ho]

/-- `applyLines` touches only the accounts and entries collections; on
success it appends exactly the audit entries of its lines. -/
theorem applyLines_frame (jid : String) :
    ∀ (ls : List LineInput) (n : ℕ) (s : Store),
      (applyLines jid ls n s).1.journals = s.journals ∧
      (applyLines jid ls n s).1.outbox = s.outbox ∧
      ((applyLines jid ls n s).2 = none →
        (applyLines jid ls n s).1.entries = s.entries ++ mkEntries jid ls n) := by
  intro ls
  induction ls with
  | nil =>
    intro n s
    exact ⟨rfl, rfl, fun _ => by simp [applyLines, mkEntries]⟩
  | cons l rest ih =>
    intro n s
    obtain ⟨haj, hae, hao⟩ := applyLineAtomic_frame s l
    rcases ha : applyLineAtomic s l with ⟨s1, e?⟩
    rw [ha] at haj hae hao
    simp only at haj hae hao
    have hdef : applyLines jid (l :: rest) n s =
        match applyLineAtomic s l with
        | (s1, some e) => (s1, some e)
        | (s1, none) => applyLines jid rest (n + 1)
            { s1 with entries := s1.entries ++ [mkEntry jid n l] } := rfl
    rw [ha] at hdef
    cases e? with
    | some e =>
      rw [hdef]
      exact ⟨haj, hao, by intro h; simp at h⟩
    | none =>
      rw [hdef]
      obtain ⟨ihj, iho, ihe⟩ := ih (n + 1)
        { s1 with entries := s1.entries ++ [mkEntry jid n l] }
      refine ⟨by rw [ihj]; exact haj, by rw [iho]; exact hao, ?_⟩
      intro hok
      rw [ihe hok]
      simp [hae, mkEntries]

/-- Membership in the entries appended by `applyLines`. -/
theorem mkEntries_mem (jid : String) :
    ∀ (ls : List LineInput) (n k : ℕ) (l : LineInput),
      ls[k]? = some l → mkEntry jid (n + k) l ∈ mkEntries jid ls n := by
  intro ls
  induction ls with
  | nil => intro n k l h; simp at h
  | cons x rest ih =>
    intro n k l h
    cases k with
    | zero =>
      simp at h
      subst h
      simp [mkEntries]
    | succ m =>
      simp at h
      have := ih (n + 1) m l h
      rw [show n + (m + 1) = (n + 1) + m by omega]
      exact List.mem_cons_of_mem _ this

/-- `ensureAccount` guarantees and preserves account ids. -/
theorem ensureAccount_ids (s : Store) (id cur : String) :
    id ∈ (ensureAccount s id cur).accounts.map AccountDoc.id ∧
    ∀ i ∈ s.accounts.map AccountDoc.id,
      i ∈ (ensureAccount s id cur).accounts.map AccountDoc.id := by
  unfold ensureAccount
  rcases h : s.accounts.find? fun a => a.id = id with _ | a
  · simp only [h]
    constructor
    · simp
    · intro i hi
      simp at hi ⊢
      rcases hi with ⟨x, hx, hxi⟩
      exact Or.inl ⟨x, hx, hxi⟩
  · simp only [h]
    constructor
    · have hmem := List.mem_of_find?_eq_some h
      have hp := List.find?_some h
      simp at hp
      simp
      exact ⟨a, hmem, hp⟩
    · intro i hi
      exact hi

/-- A successful `applyLineAtomic` preserves existing account ids and makes
the line's account exist. -/
theorem applyLineAtomic_ids {s s1 : Store} {line : LineInput} {e? : Option Err}
    (h : applyLineAtomic s line = (s1, e?)) :
    (∀ i ∈ s.accounts.map AccountDoc.id,
      i ∈ s1.accounts.map AccountDoc.id) ∧
    (e? = none → line.accountId ∈ s1.accounts.map AccountDoc.id) := by
  obtain ⟨hex, hmono⟩ := ensureAccount_ids s line.accountId line.amount.currency
  unfold applyLineAtomic at h
  rcases hn : jsNumber line.amount.amount with _ | amt
  · rw [hn] at h
    simp at h
    obtain ⟨h1, h2⟩ := h
    subst h1
    exact ⟨fun i hi => hi, fun hc => by rw [← h2] at hc; simp at hc⟩
  · rw [hn] at h
    dsimp only at h
    by_cases hb : Dec.blt amt (Dec.ofInt 0) = true
    · rw [if_pos hb] at h
      simp at h
      obtain ⟨h1, h2⟩ := h
      subst h1
      exact ⟨fun i hi => hi, fun hc => by rw [← h2] at hc; simp at hc⟩
    · rw [if_neg hb] at h
      by_cases hc : (line.fromBucket.isSome &&
          line.fromBucket = line.toBucket) = true
      · rw [if_pos hc] at h
        simp at h
        obtain ⟨h1, _⟩ := h
        subst h1
        exact ⟨hmono, fun _ => hex⟩
      · rw [if_neg hc] at h
        rcases hu : updateOne (guardPred line amt)
            (fun a => { a with
              buckets := applyInc line.fromBucket line.toBucket amt a.buckets })
            (ensureAccount s line.accountId line.amount.currency).accounts
          with ⟨acc, m⟩
        rw [hu] at h
        have hmap : acc.map AccountDoc.id =
            (ensureAccount s line.accountId
              line.amount.currency).accounts.map AccountDoc.id := by
          have := updateOne_map (p := guardPred line amt)
            (f := fun a => { a with
              buckets := applyInc line.fromBucket line.toBucket amt a.buckets })
            AccountDoc.id (fun x _ => rfl)
            (ensureAccount s line.accountId line.amount.currency).accounts
          rw [hu] at this
          exact this
        cases m with
        | true =>
          simp at h
          obtain ⟨h1, _⟩ := h
          subst h1
          constructor
          · intro i hi
            show i ∈ acc.map AccountDoc.id
            rw [hmap]
            exact hmono i hi
          · intro _
            show line.accountId ∈ acc.map AccountDoc.id
            rw [hmap]
            exact hex
        | false =>
          simp at h
          obtain ⟨h1, h2⟩ := h
          subst h1
          exact ⟨hmono, fun hc2 => by rw [← h2] at hc2; simp at hc2⟩

/-- The guard predicate pins the account id. -/
theorem guardPred_id {line : LineInput} {amt : Dec} {a : AccountDoc}
    (h : guardPred line amt a = true) : a.id = line.accountId := by
  simp [guardPred] at h
  exact h.1.1

/-- Accounts after a line apply: old documents or documents of the line's
account. -/
theorem applyLineAtomic_mem {s s1 : Store} {line : LineInput}
    {e? : Option Err} (h : applyLineAtomic s line = (s1, e?)) :
    ∀ a ∈ s1.accounts, a ∈ s.accounts ∨ a.id = line.accountId := by
  have hens : ∀ a ∈ (ensureAccount s line.accountId
      line.amount.currency).accounts,
      a ∈ s.accounts ∨ a.id = line.accountId := by
    obtain ⟨_, _, _, hacc⟩ :=
      ensureAccount_frame s line.accountId line.amount.currency
    intro a ha
    rcases hacc with he | he
    · rw [he] at ha
      exact Or.inl ha
    · rw [he] at ha
      rcases List.mem_append.mp ha with ha | ha
      · exact Or.inl ha
      · simp at ha
        rw [ha]
        exact Or.inr rfl
  unfold applyLineAtomic at h
  rcases hn : jsNumber line.amount.amount with _ | amt
  · rw [hn] at h
    simp at h
    rw [← h.1]
    intro a ha
    exact Or.inl ha
  · rw [hn] at h
    dsimp only at h
    by_cases hb : Dec.blt amt (Dec.ofInt 0) = true
    · rw [if_pos hb] at h
      simp at h
      rw [← h.1]
      intro a ha
      exact Or.inl ha
    · rw [if_neg hb] at h
      by_cases hc : (line.fromBucket.isSome &&
          line.fromBucket = line.toBucket) = true
      · rw [if_pos hc] at h
        simp at h
        rw [← h.1]
        exact hens
      · rw [if_neg hc] at h
        rcases hu : updateOne (guardPred line amt)
            (fun a => { a with
              buckets := applyInc line.fromBucket line.toBucket amt a.buckets })
            (ensureAccount s line.accountId line.amount.currency).accounts
          with ⟨acc, m⟩
        rw [hu] at h
        cases m with
        | true =>
          simp at h
          rw [← h.1]
          intro a ha
          show a ∈ s.accounts ∨ _
          have : a ∈ acc := ha
          have hmem : a ∈ (updateOne (guardPred line amt)
              (fun a => { a with
                buckets := applyInc line.fromBucket line.toBucket amt
                  a.buckets })
              (ensureAccount s line.accountId
                line.amount.currency).accounts).1 := by
            rw [hu]
            exact this
          rcases mem_updateOne hmem with hold | ⟨x, hx, hpx, hfx⟩
          · exact hens a hold
          · right
            rw [hfx]
            exact guardPred_id (a := x) hpx
        | false =>
          simp at h
          rw [← h.1]
          exact hens

/-- Accounts after the whole line loop: old documents or documents of the
journal's accounts. -/
theorem applyLines_mem (jid : String) :
    ∀ (ls : List LineInput) (n : ℕ) (s : Store),
      ∀ a ∈ (applyLines jid ls n s).1.accounts,
        a ∈ s.accounts ∨ a.id ∈ ls.map LineInput.accountId := by
  intro ls
  induction ls with
  | nil =>
    intro n s a ha
    exact Or.inl ha
  | cons l rest ih =>
    intro n s a ha
    have hdef : applyLines jid (l :: rest) n s =
        match applyLineAtomic s l with
        | (s1, some e) => (s1, some e)
        | (s1, none) => applyLines jid rest (n + 1)
            { s1 with entries := s1.entries ++ [mkEntry jid n l] } := rfl
    rcases h1 : applyLineAtomic s l with ⟨s1, e?⟩
    rw [h1] at hdef
    cases e? with
    | some e =>
      rw [hdef] at ha
      rcases applyLineAtomic_mem h1 a ha with hold | hid
      · exact Or.inl hold
      · exact Or.inr (by simp [hid])
    | none =>
      rw [hdef] at ha
      rcases ih (n + 1) { s1 with entries := s1.entries ++ [mkEntry jid n l] }
          a ha with hold | hid
      · rcases applyLineAtomic_mem h1 a hold with hold2 | hid2
        · exact Or.inl hold2
        · exact Or.inr (by simp [hid2])
      · exact Or.inr (by simp [hid])

/-- Constructive `updateOne` on a decomposed list. -/
theorem updateOne_append {α : Type} {p : α → Bool} {f : α → α}
    {pre : List α} {x : α} (suf : List α)
    (hpre : ∀ y ∈ pre, p y = false) (hx : p x = true) :
    updateOne p f (pre ++ x :: suf) = (pre ++ f x :: suf, true) := by
  induction pre with
  | nil =>
    simp [updateOne, hx]
  | cons a as ih =>
    have ha : p a = false := hpre a (by simp)
    have has : ∀ y ∈ as, p y = false := fun y hy => hpre y (by simp [hy])
    simp [updateOne, ha, ih has]

/-- `find?` skips a prefix with no matches. -/
theorem find?_append_right {α : Type} {p : α → Bool} {l1 l2 : List α}
    (h : ∀ x ∈ l1, p x = false) :
    (l1 ++ l2).find? p = l2.find? p := by
  have h1 : l1.find? p = none :=
    List.find?_eq_none.mpr fun x hx => by simp [h x hx]
  rw [List.find?_append, h1]
  simp

/-- Case analysis of a committing transaction body: either the idempotency
probe hits (no writes, existing id returned), or the full fresh-post write
sequence ran with no error and no chaos. -/
theorem txnBody_ok {now : ℤ} {chaos : Bool} {parsed : JournalInput}
    {s st : Store} {already : Option String}
    (h : txnBody now chaos parsed s = (st, none, already)) :
    (∃ ex, findExistingJournal s parsed = some ex ∧ st = s ∧
      already = some ex.journalId) ∨
    (findExistingJournal s parsed = none ∧ already = none ∧ chaos = false ∧
      ∃ s2, applyLines parsed.journalId parsed.lines 1
          (createJournalHeader s parsed) = (s2, none) ∧
        assertNoNegativeBuckets s2
          ((parsed.lines.map LineInput.accountId).dedup) = none ∧
        st = markJournalPosted (enqueueOutboxPosted now s2 parsed.journalId)
          parsed.journalId) := by
  unfold txnBody at h
  rcases hf : findExistingJournal s parsed with _ | ex
  · rw [hf] at h
    dsimp only at h
    rcases ha : applyLines parsed.journalId parsed.lines 1
        (createJournalHeader s parsed) with ⟨s2, e?⟩
    rw [ha] at h
    cases e? with
    | some e => simp at h
    | none =>
      dsimp only at h
      rcases hs : assertNoNegativeBuckets s2
          ((parsed.lines.map LineInput.accountId).dedup) with _ | e
      · rw [hs] at h
        dsimp only at h
        cases hc : chaos with
        | true =>
          rw [hc] at h
          simp at h
        | false =>
          rw [hc] at h
          simp at h
          right
          exact ⟨rfl, h.2.symm, rfl, s2, rfl, hs, h.1.symm⟩
      · rw [hs] at h
        simp at h
  · rw [hf] at h
    dsimp only at h
    have h1 : s = st := congrArg Prod.fst h
    have h2 : some ex.journalId = already := congrArg (fun t => t.2.2) h
    left
    exact ⟨ex, rfl, h1.symm, h2.symm⟩

/-- A successful line loop preserves existing account ids and makes every
line's account exist. -/
theorem applyLines_ids (jid : String) :
    ∀ (ls : List LineInput) (n : ℕ) (s s2 : Store),
      applyLines jid ls n s = (s2, none) →
      (∀ i ∈ s.accounts.map AccountDoc.id,
        i ∈ s2.accounts.map AccountDoc.id) ∧
      (∀ l ∈ ls, l.accountId ∈ s2.accounts.map AccountDoc.id) := by
  intro ls
  induction ls with
  | nil =>
    intro n s s2 h
    simp [applyLines] at h
    subst h
    exact ⟨fun i hi => hi, by simp⟩
  | cons l rest ih =>
    intro n s s2 h
    have hdef : applyLines jid (l :: rest) n s =
        match applyLineAtomic s l with
        | (s1, some e) => (s1, some e)
        | (s1, none) => applyLines jid rest (n + 1)
            { s1 with entries := s1.entries ++ [mkEntry jid n l] } := rfl
    rcases h1 : applyLineAtomic s l with ⟨s1, e?⟩
    rw [h1] at hdef
    cases e? with
    | some e =>
      rw [hdef] at h
      simp at h
    | none =>
      rw [hdef] at h
      obtain ⟨hm1, hm2⟩ := applyLineAtomic_ids h1
      obtain ⟨ihm, ihl⟩ := ih (n + 1)
        { s1 with entries := s1.entries ++ [mkEntry jid n l] } s2 h
      refine ⟨fun i hi => ihm i (hm1 i hi), ?_⟩
      intro x hx
      rcases List.mem_cons.mp hx with hx | hx
      · rw [hx]
        exact ihm l.accountId (hm2 rfl)
      · exact ihl x hx

/-- In a fresh post, the commit leaves exactly the new header, now
`posted`, appended to the untouched journal collection. -/
theorem fresh_post_journals {s : Store} {parsed : JournalInput} {now : ℤ}
    {s2 : Store} (hfind : findExistingJournal s parsed = none)
    (hjournals : s2.journals = s.journals ++
      [⟨parsed.journalId, parsed.idempotencyKey, parsed.lines, .pending⟩]) :
    (markJournalPosted (enqueueOutboxPosted now s2 parsed.journalId)
      parsed.journalId).journals =
    s.journals ++ [⟨parsed.journalId, parsed.idempotencyKey, parsed.lines,
      JournalStatus.posted⟩] := by
  have hno : ∀ j ∈ s.journals,
      (decide (j.journalId = parsed.journalId)) = false := by
    intro j hj
    have := List.find?_eq_none.mp hfind j hj
    simp at this
    simp [this.2]
  have henq : (enqueueOutboxPosted now s2 parsed.journalId).journals =
      s2.journals := rfl
  unfold markJournalPosted
  rw [henq, hjournals]
  rw [updateOne_append _ hno (by simp)]

/-- **C1.** Atomicity of `postJournal`: every failing run (schema,
preflight, or any throw inside the transaction, chaos included) leaves the
store exactly as it was — no journal header, no ledger entry, no outbox
item, no account delta is observable; every successful run either is an
idempotent hit (store unchanged, an existing matching journal's id
returned) or makes all four kinds of writes visible together: the `posted`
header, one audit entry per line, the pending outbox item, and the
accounts of every line. -/
theorem postJournal_atomicity (now : ℤ) (chaos : Bool) (s : Store)
    (input : JournalInput) :
    (∀ e, (postJournal now chaos s input).1 = .error e →
      (postJournal now chaos s input).2 = s) ∧
    (∀ jid, (postJournal now chaos s input).1 = .ok jid →
      ∃ parsed, parseJournal input = .ok parsed ∧
        (((postJournal now chaos s input).2 = s ∧
          ∃ j ∈ s.journals,
            (j.idempotencyKey = parsed.idempotencyKey ∨
              j.journalId = parsed.journalId) ∧ jid = j.journalId) ∨
         (jid = parsed.journalId ∧
          (∃ j ∈ (postJournal now chaos s input).2.journals,
            j.journalId = parsed.journalId ∧
            j.idempotencyKey = parsed.idempotencyKey ∧
            j.status = JournalStatus.posted) ∧
          (∀ (k : ℕ) (l : LineInput), parsed.lines[k]? = some l →
            mkEntry parsed.journalId (k + 1) l ∈
              (postJournal now chaos s input).2.entries) ∧
          (∃ ob ∈ (postJournal now chaos s input).2.outbox,
            ob.journalId = parsed.journalId ∧
            ob.status = OutboxStatus.pending ∧
            ob.topic = "LedgerEvent.Posted") ∧
          (∀ l ∈ parsed.lines,
            l.accountId ∈
              (postJournal now chaos s input).2.accounts.map
                AccountDoc.id)))) := by
  rcases hp : parseJournal input with e | parsed
  · have heq : postJournal now chaos s input = (.error e, s) := by
      unfold postJournal
      rw [hp]
    rw [heq]
    exact ⟨fun e' h' => rfl, fun jid h' => by simp at h'⟩
  · rcases hpre : preflightValidate parsed with e | u
    · have heq : postJournal now chaos s input = (.error e, s) := by
        unfold postJournal
        rw [hp]
        dsimp only
        rw [hpre]
      rw [heq]
      exact ⟨fun e' h' => rfl, fun jid h' => by simp at h'⟩
    · rcases htx : txnBody now chaos parsed s with ⟨st, oe, already⟩
      cases oe with
      | some e =>
        have heq : postJournal now chaos s input = (.error e, s) := by
          unfold postJournal
          rw [hp]
          dsimp only
          rw [hpre]
          dsimp only
          rw [htx]
        rw [heq]
        exact ⟨fun e' h' => rfl, fun jid h' => by simp at h'⟩
      | none =>
        have heq : postJournal now chaos s input =
            (.ok (already.getD parsed.journalId), st) := by
          unfold postJournal
          rw [hp]
          dsimp only
          rw [hpre]
          dsimp only
          rw [htx]
        rw [heq]
        refine ⟨fun e h' => by simp at h', ?_⟩
        intro jid hjid
        simp only at hjid
        have hjid' : already.getD parsed.journalId = jid := by
          simpa using hjid
        refine ⟨parsed, rfl, ?_⟩
        rcases txnBody_ok htx with ⟨ex, hfind, hst, halready⟩ |
          ⟨hfind, halready, hchaos, s2, happly, hsweep, hst⟩
        · left
          have hfind2 : s.journals.find? (fun j =>
              j.idempotencyKey = parsed.idempotencyKey ||
                j.journalId = parsed.journalId) = some ex := hfind
          have hmem : ex ∈ s.journals := List.mem_of_find?_eq_some hfind2
          have hpred := List.find?_some hfind2
          simp at hpred
          refine ⟨by rw [hst], ex, hmem, hpred, ?_⟩
          rw [← hjid', halready]
          rfl
        · right
          subst halready
          simp only [Option.getD] at hjid'
          subst hjid'
          obtain ⟨hlj, hlo, hle⟩ :=
            applyLines_frame parsed.journalId parsed.lines 1
              (createJournalHeader s parsed)
          rw [happly] at hlj hlo hle
          simp only at hlj hlo hle
          have hs2j : s2.journals = s.journals ++
              [⟨parsed.journalId, parsed.idempotencyKey, parsed.lines,
                .pending⟩] := by
            rw [hlj]
            rfl
          refine ⟨rfl, ?_, ?_, ?_, ?_⟩
          · -- posted header
            refine ⟨⟨parsed.journalId, parsed.idempotencyKey, parsed.lines,
              JournalStatus.posted⟩, ?_, rfl, rfl, rfl⟩
            simp only
            rw [hst, fresh_post_journals hfind hs2j]
            simp
          · -- audit entries
            intro k l hkl
            simp only
            rw [hst]
            have hste : (markJournalPosted
                (enqueueOutboxPosted now s2 parsed.journalId)
                parsed.journalId).entries = s2.entries := rfl
            rw [hste, hle trivial]
            have hce : (createJournalHeader s parsed).entries = s.entries :=
              rfl
            rw [hce]
            have := mkEntries_mem parsed.journalId parsed.lines 1 k l hkl
            rw [show (1 : ℕ) + k = k + 1 by omega] at this
            exact List.mem_append_right _ this
          · -- outbox item
            simp only
            rw [hst]
            have hsto : (markJournalPosted
                (enqueueOutboxPosted now s2 parsed.journalId)
                parsed.journalId).outbox =
                s2.outbox ++ [⟨freshOutboxId s2, parsed.journalId,
                  "LedgerEvent.Posted", parsed.journalId, .pending, 0,
                  now, now⟩] := rfl
            rw [hsto]
            exact ⟨⟨freshOutboxId s2, parsed.journalId, "LedgerEvent.Posted",
              parsed.journalId, .pending, 0, now, now⟩,
              List.mem_append_right _ (by simp), rfl, rfl, rfl⟩
          · -- accounts
            intro l hl
            simp only
            rw [hst]
            have hsta : (markJournalPosted
                (enqueueOutboxPosted now s2 parsed.journalId)
                parsed.journalId).accounts = s2.accounts := rfl
            rw [hsta]
            exact (applyLines_ids parsed.journalId parsed.lines 1
              (createJournalHeader s parsed) s2 happly).2 l hl

/-- Witness for C1: the S4 scenario (insufficient funds) leaves the seeded
store unchanged — no header, entry, outbox item, or account delta. -/
theorem postJournal_atomicity_witness :
    (postJournal 0 false
      ⟨[⟨"LOW", "USD", ⟨Dec.ofInt 3, Dec.ofInt 0, Dec.ofInt 0, Dec.ofInt 0⟩⟩,
        ⟨"POOL", "USD",
          ⟨Dec.ofInt 100, Dec.ofInt 0, Dec.ofInt 0, Dec.ofInt 0⟩⟩],
        [], [], []⟩
      ⟨"J-LOW", "idem-low",
        [⟨"LOW", some Bucket.available, some Bucket.pending, Side.debit,
            ⟨"USD", "5"⟩, Transition.reserve⟩,
         ⟨"POOL", some Bucket.available, some Bucket.escrow, Side.credit,
            ⟨"USD", "5"⟩, Transition.lock⟩]⟩).2 =
    ⟨[⟨"LOW", "USD", ⟨Dec.ofInt 3, Dec.ofInt 0, Dec.ofInt 0, Dec.ofInt 0⟩⟩,
      ⟨"POOL", "USD",
        ⟨Dec.ofInt 100, Dec.ofInt 0, Dec.ofInt 0, Dec.ofInt 0⟩⟩],
      [], [], []⟩ :=
  (postJournal_atomicity 0 false
    ⟨[⟨"LOW", "USD", ⟨Dec.ofInt 3, Dec.ofInt 0, Dec.ofInt 0, Dec.ofInt 0⟩⟩,
      ⟨"POOL", "USD",
        ⟨Dec.ofInt 100, Dec.ofInt 0, Dec.ofInt 0, Dec.ofInt 0⟩⟩],
      [], [], []⟩
    ⟨"J-LOW", "idem-low",
      [⟨"LOW", some Bucket.available, some Bucket.pending, Side.debit,
          ⟨"USD", "5"⟩, Transition.reserve⟩,
       ⟨"POOL", some Bucket.available, some Bucket.escrow, Side.credit,
          ⟨"USD", "5"⟩, Transition.lock⟩]⟩).1
    (Err.insufficientFunds "LOW") (by decide)

/-- After a successful post, posting the identical body again is an
idempotent hit: same result id, store untouched. -/
theorem postJournal_second_call {now : ℤ} {chaos : Bool} {s : Store}
    {input : JournalInput} {jid : String}
    (h : (postJournal now chaos s input).1 = .ok jid) :
    postJournal now chaos ((postJournal now chaos s input).2) input =
      (.ok jid, (postJournal now chaos s input).2) := by
  rcases hp : parseJournal input with e | parsed
  · have heq : postJournal now chaos s input = (.error e, s) := by
      unfold postJournal
      rw [hp]
    rw [heq] at h
    simp at h
  · rcases hpre : preflightValidate parsed with e | u
    · have heq : postJournal now chaos s input = (.error e, s) := by
        unfold postJournal
        rw [hp]
        dsimp only
        rw [hpre]
      rw [heq] at h
      simp at h
    · rcases htx : txnBody now chaos parsed s with ⟨st, oe, already⟩
      cases oe with
      | some e =>
        have heq : postJournal now chaos s input = (.error e, s) := by
          unfold postJournal
          rw [hp]
          dsimp only
          rw [hpre]
          dsimp only
          rw [htx]
        rw [heq] at h
        simp at h
      | none =>
        have heq : postJournal now chaos s input =
            (.ok (already.getD parsed.journalId), st) := by
          unfold postJournal
          rw [hp]
          dsimp only
          rw [hpre]
          dsimp only
          rw [htx]
        rw [heq] at h
        simp at h
        rcases txnBody_ok htx with ⟨ex, hfind, hst, halready⟩ |
          ⟨hfind, halready, hchaos, s2, happly, hsweep, hst⟩
        · -- idempotent first call: the store is unchanged, so the second
          -- call is literally the first again
          have h2 : (postJournal now chaos s input).2 = s := by rw [heq, hst]
          rw [h2]
          calc postJournal now chaos s input
              = ((postJournal now chaos s input).1,
                 (postJournal now chaos s input).2) := rfl
            _ = (.ok jid, s) := by rw [h2, heq]; simp [h]
        · -- fresh first call: the new posted header is found by the probe
          subst halready
          simp only [Option.getD] at h
          have h2 : (postJournal now chaos s input).2 = st := by rw [heq]
          rw [h2]
          have hfindst : findExistingJournal st parsed =
              some ⟨parsed.journalId, parsed.idempotencyKey, parsed.lines,
                JournalStatus.posted⟩ := by
            unfold findExistingJournal
            obtain ⟨hlj, _, _⟩ :=
              applyLines_frame parsed.journalId parsed.lines 1
                (createJournalHeader s parsed)
            rw [happly] at hlj
            simp only at hlj
            have hs2j : s2.journals = s.journals ++
                [⟨parsed.journalId, parsed.idempotencyKey, parsed.lines,
                  .pending⟩] := by
              rw [hlj]
              rfl
            rw [hst]
            rw [show (markJournalPosted
                (enqueueOutboxPosted now s2 parsed.journalId)
                parsed.journalId).journals =
                s.journals ++ [⟨parsed.journalId, parsed.idempotencyKey,
                  parsed.lines, JournalStatus.posted⟩]
              from fresh_post_journals hfind hs2j]
            rw [find?_append_right (fun j hj => by
              have := List.find?_eq_none.mp hfind j hj
              simpa using this)]
            simp
          have htx2 : txnBody now chaos parsed st =
              (st, none, some parsed.journalId) := by
            unfold txnBody
            rw [hfindst]
          unfold postJournal
          rw [hp]
          dsimp only
          rw [hpre]
          dsimp only
          rw [htx2]
          simp [h]

/-- **C2.** Idempotent replay: if a `postJournal` call succeeds, then for
every `N ≥ 1`, `N` sequential calls with the identical body end in exactly
the store of the first call (same accounts' buckets, same audit entries,
same everything), and the `N`-th call still returns success with the
existing journal id while performing no writes. -/
theorem postJournal_idempotent (now : ℤ) (chaos : Bool)
    (input : JournalInput) (s : Store) (jid : String)
    (h : (postJournal now chaos s input).1 = .ok jid) :
    ∀ N, 1 ≤ N →
      iterPost now chaos input N s =
        (.ok jid, (postJournal now chaos s input).2) := by
  intro N hN
  induction N with
  | zero => omega
  | succ n ih =>
    cases n with
    | zero =>
      show postJournal now chaos s input = _
      calc postJournal now chaos s input
          = ((postJournal now chaos s input).1,
             (postJournal now chaos s input).2) := rfl
        _ = (.ok jid, (postJournal now chaos s input).2) := by rw [h]
    | succ m =>
      have hiter : iterPost now chaos input (m + 2) s =
          postJournal now chaos (iterPost now chaos input (m + 1) s).2
            input := rfl
      rw [hiter, ih (by omega)]
      exact postJournal_second_call h

/-- Witness for C2: the S2 scenario — posting the same 10-unit body three
times ends exactly where one posting ends, still returning `"J-1"`. -/
theorem postJournal_idempotent_witness :
    iterPost 0 false
      ⟨"J-1", "idem-dup-1",
        [⟨"A", some Bucket.available, some Bucket.pending, Side.debit,
            ⟨"USD", "10"⟩, Transition.reserve⟩,
         ⟨"B", some Bucket.available, some Bucket.escrow, Side.credit,
            ⟨"USD", "10"⟩, Transition.lock⟩]⟩ 3
      ⟨[⟨"A", "USD", ⟨Dec.ofInt 100, Dec.ofInt 0, Dec.ofInt 0, Dec.ofInt 0⟩⟩,
        ⟨"B", "USD",
          ⟨Dec.ofInt 100, Dec.ofInt 0, Dec.ofInt 0, Dec.ofInt 0⟩⟩],
        [], [], []⟩ =
    (.ok "J-1",
      (postJournal 0 false
        ⟨[⟨"A", "USD",
            ⟨Dec.ofInt 100, Dec.ofInt 0, Dec.ofInt 0, Dec.ofInt 0⟩⟩,
          ⟨"B", "USD",
            ⟨Dec.ofInt 100, Dec.ofInt 0, Dec.ofInt 0, Dec.ofInt 0⟩⟩],
          [], [], []⟩
        ⟨"J-1", "idem-dup-1",
          [⟨"A", some Bucket.available, some Bucket.pending, Side.debit,
              ⟨"USD", "10"⟩, Transition.reserve⟩,
           ⟨"B", some Bucket.available, some Bucket.escrow, Side.credit,
              ⟨"USD", "10"⟩, Transition.lock⟩]⟩).2) :=
  postJournal_idempotent 0 false
    ⟨"J-1", "idem-dup-1",
      [⟨"A", some Bucket.available, some Bucket.pending, Side.debit,
          ⟨"USD", "10"⟩, Transition.reserve⟩,
       ⟨"B", some Bucket.available, some Bucket.escrow, Side.credit,
          ⟨"USD", "10"⟩, Transition.lock⟩]⟩
    ⟨[⟨"A", "USD", ⟨Dec.ofInt 100, Dec.ofInt 0, Dec.ofInt 0, Dec.ofInt 0⟩⟩,
      ⟨"B", "USD", ⟨Dec.ofInt 100, Dec.ofInt 0, Dec.ofInt 0, Dec.ofInt 0⟩⟩],
      [], [], []⟩
    "J-1" (by decide) 3 (by omega)

/-- A decimal that is not strictly below zero has non-negative value. -/
theorem nonneg_of_blt_false {x : Dec} (h : Dec.blt x (Dec.ofInt 0) = false) :
    0 ≤ x.val := by
  by_contra hlt
  push_neg at hlt
  have ht : Dec.blt x (Dec.ofInt 0) = true :=
    (Dec.blt_iff x (Dec.ofInt 0)).mpr
      (by rw [Dec.val_ofInt]; exact_mod_cast hlt)
  rw [ht] at h
  exact Bool.noConfusion h

/-- If the negative-bucket scan finds nothing, every bucket is `≥ 0`. -/
theorem firstNegBucket_none {bs : BucketMap} (h : firstNegBucket bs = none) :
    ∀ b : Bucket, Dec.blt (bs.get b) (Dec.ofInt 0) = false := by
  intro b
  unfold firstNegBucket at h
  split_ifs at h with h1 h2 h3 h4
  simp only [Bool.not_eq_true] at h1 h2 h3 h4
  cases b <;> (simp only [BucketMap.get]; assumption)

/-- A clean sweep certifies every scanned non-overdraft account. -/
theorem assertNoNegativeBuckets_none {s : Store} {ids : List String}
    (h : assertNoNegativeBuckets s ids = none) :
    ∀ a ∈ s.accounts, a.id ∈ ids → a.id ∉ SYSTEM_OVERDRAFT_ACCOUNTS →
      firstNegBucket a.buckets = none := by
  intro a ha hin hnov
  unfold assertNoNegativeBuckets at h
  rcases hf : s.accounts.find? (fun a =>
      decide (a.id ∈ ids) &&
      decide (a.id ∉ SYSTEM_OVERDRAFT_ACCOUNTS) &&
      (firstNegBucket a.buckets).isSome) with _ | a0
  · have hp := List.find?_eq_none.mp hf a ha
    simp only [Bool.and_eq_true, decide_eq_true_eq, Bool.not_eq_true] at hp
    rcases ho : firstNegBucket a.buckets with _ | b
    · rfl
    · exact absurd ⟨⟨hin, hnov⟩, by rw [ho]; rfl⟩ hp
  · exfalso
    have hsome : (firstNegBucket a0.buckets).isSome = true := by
      have hp0 := List.find?_some hf
      simp only [Bool.and_eq_true] at hp0
      exact hp0.2
    rw [hf] at h
    dsimp only at h
    rcases hb : firstNegBucket a0.buckets with _ | b
    · rw [hb] at hsome
      exact Bool.noConfusion hsome
    · rw [hb] at h
      exact Option.noConfusion h

/-- **C3.** No negative balances: starting from a store in which every
account outside `SYSTEM_OVERDRAFT_ACCOUNTS` has all four buckets `≥ 0`, a
successful `postJournal` yields a store with the same property — the
guarded per-line update together with the `assertNoNegativeBuckets` sweep
preserves non-negativity for every non-overdraft account and every bucket
in {available, pending, escrow, outflow}. -/
theorem postJournal_no_negative (now : ℤ) (chaos : Bool) (s : Store)
    (input : JournalInput) (jid : String)
    (hinv : ∀ a ∈ s.accounts, a.id ∉ SYSTEM_OVERDRAFT_ACCOUNTS →
      ∀ b : Bucket, 0 ≤ (a.buckets.get b).val)
    (hok : (postJournal now chaos s input).1 = .ok jid) :
    ∀ a ∈ (postJournal now chaos s input).2.accounts,
      a.id ∉ SYSTEM_OVERDRAFT_ACCOUNTS →
      ∀ b : Bucket, 0 ≤ (a.buckets.get b).val := by
  intro a ha hnov b
  rcases hp : parseJournal input with e | parsed
  · have heq : postJournal now chaos s input = (.error e, s) := by
      unfold postJournal
      rw [hp]
    rw [heq] at hok
    simp at hok
  · rcases hpre : preflightValidate parsed with e | u
    · have heq : postJournal now chaos s input = (.error e, s) := by
        unfold postJournal
        rw [hp]
        dsimp only
        rw [hpre]
      rw [heq] at hok
      simp at hok
    · rcases htx : txnBody now chaos parsed s with ⟨st, oe, already⟩
      cases oe with
      | some e =>
        have heq : postJournal now chaos s input = (.error e, s) := by
          unfold postJournal
          rw [hp]
          dsimp only
          rw [hpre]
          dsimp only
          rw [htx]
        rw [heq] at hok
        simp at hok
      | none =>
        have heq : postJournal now chaos s input =
            (.ok (already.getD parsed.journalId), st) := by
          unfold postJournal
          rw [hp]
          dsimp only
          rw [hpre]
          dsimp only
          rw [htx]
        have ha' : a ∈ st.accounts := by rw [heq] at ha; exact ha
        rcases txnBody_ok htx with ⟨ex, hfind, hst, halready⟩ |
          ⟨hfind, halready, hchaos, s2, happly, hsweep, hst⟩
        · rw [hst] at ha'
          exact hinv a ha' hnov b
        · have hacc : st.accounts = s2.accounts := by rw [hst]; rfl
          rw [hacc] at ha'
          rcases applyLines_mem parsed.journalId parsed.lines 1
              (createJournalHeader s parsed) a
              (by rw [happly]; exact ha') with hold | hid
          · exact hinv a hold hnov b
          · have hids : a.id ∈ (parsed.lines.map LineInput.accountId).dedup :=
              List.mem_dedup.mpr hid
            have hnone := assertNoNegativeBuckets_none hsweep a ha' hids hnov
            exact nonneg_of_blt_false (firstNegBucket_none hnone b)

/-- Witness for C3: in the posted state of a 10-unit reserve+lock journal
over two 100-unit accounts, account `A`'s available bucket (now 90) is
non-negative. -/
theorem postJournal_no_negative_witness :
    0 ≤ (((⟨"A", "USD", ⟨⟨90, 0⟩, ⟨10, 0⟩, ⟨0, 0⟩, ⟨0, 0⟩⟩⟩ :
        AccountDoc)).buckets.get Bucket.available).val :=
  postJournal_no_negative 0 false
    ⟨[⟨"A", "USD", ⟨Dec.ofInt 100, Dec.ofInt 0, Dec.ofInt 0, Dec.ofInt 0⟩⟩,
      ⟨"B", "USD", ⟨Dec.ofInt 100, Dec.ofInt 0, Dec.ofInt 0, Dec.ofInt 0⟩⟩],
      [], [], []⟩
    ⟨"J-3", "idem-c3",
      [⟨"A", some Bucket.available, some Bucket.pending, Side.debit,
          ⟨"USD", "10"⟩, Transition.reserve⟩,
       ⟨"B", some Bucket.available, some Bucket.escrow, Side.credit,
          ⟨"USD", "10"⟩, Transition.lock⟩]⟩
    "J-3"
    (by
      intro a ha hnov b
      simp only [List.mem_cons, List.not_mem_nil, or_false] at ha
      rcases ha with rfl | rfl <;>
        cases b <;> norm_num [BucketMap.get, Dec.val_ofInt])
    (by decide)
    ⟨"A", "USD", ⟨⟨90, 0⟩, ⟨10, 0⟩, ⟨0, 0⟩, ⟨0, 0⟩⟩⟩
    (by decide) (by decide) Bucket.available

end Ledger
